import Mathlib

/-!
# labeller: the `label` command (`cmd/label.go`)

A shallow embedding of `Labeller` and its methods `matchWithTag`,
`mapGitLabels`, `parseRepoPRs`, `applyLabelToIssue` and `Label`.

* Go strings are `String`s (titles and label names come out of the JSON
  decoder, so they are valid Unicode).
* The two standard-library calls of `matchWithTag` are embedded on the part of
  their domain that is fixed by their documentation, and left to a parameter
  (`GoLib`) elsewhere: `strings.ToLower` on non-ASCII runes, `regexp.Match` on
  patterns that contain a regular-expression metacharacter.
* The remote service is the record `Client`: what `Issues.ListLabels` and
  `Issues.ListByRepo` answer and whether `Issues.Edit` reports an error.
* `pageToParse` is a 64-bit `int` and `totalLabelledPRs` a `uint64`: the
  increments wrap around.
* `Label` runs one goroutine per pull request.  It is embedded as a step
  function on `LabelState`, driven by a schedule that names the goroutine
  taking the next step, so that every interleaving is a schedule.  A step is
  one access to the shared state: `Lock`, `Unlock` and `atomic.AddUint64` are
  one step each, the append to `failedPRs.prs` is a read followed by a write,
  and `applyLabelToIssue` with its `Issues.Edit` call is one step.  The main
  goroutine receives the batches in the order `parseRepoPRs` sends them.
-/

namespace Cmd

/-! ## Definitions -/

/-- The fields of `github.Issue` the program reads: `Number`, `Title`,
`User.Login`, whether `PullRequestLinks` is set (`IsPullRequest()`), and the
labels the issue currently carries on the remote (never read by the program). -/
structure Issue where
  number : Int
  title : String
  login : String
  isPullRequest : Bool
  labels : List String
deriving DecidableEq

/-- The fields of `github.IssueListByRepoOptions` set by `parseRepoPRs`. -/
structure IssueListByRepoOptions where
  state : String
  page : Int
  perPage : Int
deriving DecidableEq

/-- One `Issues.Edit` call: the issue number and the `Labels` of the request. -/
structure EditCall where
  number : Int
  labels : List String
deriving DecidableEq

/-- The remote service behind `github.Client`. `listLabels` are the names
`Issues.ListLabels` returns (nothing on an error), `listByRepo` the issues
`Issues.ListByRepo` returns for the given options (nothing on an error), and
`edit` tells whether `Issues.Edit` reports an error. -/
structure Client where
  listLabels : List String
  listByRepo : IssueListByRepoOptions → List Issue
  edit : EditCall → Bool

/-- A Go `map[string]string`: a lookup that is `none` off its keys. -/
abbrev GoMap := String → Option String

/-- The map `make(map[string]string)` returns. -/
def GoMap.empty : GoMap := fun _ => none

/-- The assignment `m[k] = v`. -/
def GoMap.insert (m : GoMap) (k v : String) : GoMap :=
  fun k' => if k' = k then some v else m k'

/-- The expression `m[k]`: the zero value `""` when `k` is not a key. -/
def GoMap.index (m : GoMap) (k : String) : String := (m k).getD ""

/-- The struct `Labeller` (its `ctx` carries no data). -/
structure Labeller where
  client : Client
  gitLabelMap : GoMap
  tags : List String

/-- The package variable `tags`. -/
def tags : List String := ["chore", "docs", "feat", "fix", "refactor", "style", "test"]

/-- What the embedding leaves open in the Go standard library:
`unicode.ToLower` on runes outside ASCII, and `regexp.Match` (its error
dropped) on patterns that contain a metacharacter. -/
structure GoLib where
  unicodeToLower : Char → Char
  regexpMatchMeta : String → String → Bool

/-- The rune map of `strings.ToLower`: `A`-`Z` go to `a`-`z`, other ASCII runes
stay, the rest goes through the Unicode tables. -/
def toLowerRune (lib : GoLib) (c : Char) : Char :=
  if c.val < 128 then c.toLower else lib.unicodeToLower c

/-- The call `strings.ToLower(s)`. -/
def toLower (lib : GoLib) (s : String) : String :=
  ⟨s.data.map (toLowerRune lib)⟩

/-- The characters `regexp/syntax` treats as special (those `QuoteMeta` escapes). -/
def metaChars : List Char :=
  ['\\', '.', '+', '*', '?', '(', ')', '|', '[', ']', '\x7b', '\x7d', '^', '$']

/-- A pattern without a metacharacter: it is a literal. -/
def isLiteral (pattern : String) : Bool :=
  pattern.data.all (fun c => !metaChars.contains c)

/-- Whether `p` occurs in `t` as a contiguous run. -/
def containsRun (p : List Char) : List Char → Bool
  | [] => p.isEmpty
  | c :: cs => p.isPrefixOf (c :: cs) || containsRun p cs

/-- The call `matched, _ := regexp.Match(pattern, []byte(text))`: a literal
pattern matches exactly when it occurs in the text. -/
def regexpMatch (lib : GoLib) (pattern text : String) : Bool :=
  if isLiteral pattern then containsRun pattern.data text.data
  else lib.regexpMatchMeta pattern text

/-- The loop of `matchWithTag` over the remaining tags. -/
def matchLoop (lib : GoLib) (title : String) : List String → String
  | [] => "unknown"
  | tag :: rest =>
    let lowerTitle := toLower lib title
    let matched := regexpMatch lib tag lowerTitle
    if matched then tag else matchLoop lib title rest

/-- The method `Labeller.matchWithTag`. -/
def matchWithTag (lib : GoLib) (l : Labeller) (title : String) : String :=
  matchLoop lib title l.tags

/-- The method `Labeller.mapGitLabels`. -/
def mapGitLabels (lib : GoLib) (l : Labeller) : GoMap :=
  let gitLabels := l.client.listLabels
  gitLabels.foldl
    (fun gitLabelMap name => gitLabelMap.insert (matchWithTag lib l name) name)
    GoMap.empty

/-- A token of lowercase letters `a`-`z`. -/
def isLowerToken (s : String) : Bool := s.data.all Char.isLower

/-- A library instance for evaluating examples: nothing lower-cased outside
ASCII and no pattern with a metacharacter matched. -/
def asciiLib : GoLib := ⟨fun c => c, fun _ _ => false⟩

/-- A client whose remote has no labels and no issues. -/
def noClient : Client := ⟨[], fun _ => [], fun _ => false⟩

/-- What `parseRepoPRs` does, in order: a `ListByRepo` request, a batch sent on
`issueChan`, the closing of `issueChan`. -/
inductive ChanEvent where
  | request (opts : IssueListByRepoOptions)
  | send (issues : List Issue)
  | close
deriving DecidableEq

/-- The options of the request for page `pageToParse`. -/
def pageOptions (pageToParse : Int) : IssueListByRepoOptions :=
  { state := "closed", page := pageToParse, perPage := 100 }

/-- The increment `pageToParse++` on a 64-bit `int`. -/
def incrInt (n : Int) : Int :=
  (n + 1 + 9223372036854775808) % 18446744073709551616 - 9223372036854775808

/-- The loop of `parseRepoPRs` from page `pageToParse` on; `fuel` bounds the
number of requests, and `none` means the bound was reached before an empty
page came back. -/
def parseLoop (l : Labeller) : Nat → Int → Option (List ChanEvent)
  | 0, _ => none
  | fuel + 1, pageToParse =>
    let issues := l.client.listByRepo (pageOptions pageToParse)
    if issues.length > 0 then
      (parseLoop l fuel (incrInt pageToParse)).map
        (fun rest => ChanEvent.request (pageOptions pageToParse) :: ChanEvent.send issues :: rest)
    else
      some [ChanEvent.request (pageOptions pageToParse), ChanEvent.close]

/-- The method `Labeller.parseRepoPRs`, as the sequence of its events. -/
def parseRepoPRs (l : Labeller) (fuel : Nat) : Option (List ChanEvent) :=
  parseLoop l fuel 1

/-- The batches a consumer receives from `issueChan`, in order. -/
def batchesOf : List ChanEvent → List (List Issue)
  | [] => []
  | ChanEvent.send issues :: rest => issues :: batchesOf rest
  | _ :: rest => batchesOf rest

/-- The method `Labeller.applyLabelToIssue`: the `Issues.Edit` calls it makes
and the error it returns (`none` for `nil`). The answer of `Issues.Edit` is
dropped, as in the source. -/
def applyLabelToIssue (lib : GoLib) (l : Labeller) (issue : Issue) :
    List EditCall × Option String :=
  let tag := matchWithTag lib l issue.title
  if tag ≠ "unknown" then
    let call : EditCall := { number := issue.number, labels := [l.gitLabelMap.index tag] }
    let _ := l.client.edit call
    ([call], none)
  else
    ([], some "No matching tag found")

/-- Where a labelling goroutine stands. -/
inductive Pc where
  /-- spawned, `applyLabelToIssue` not yet called -/
  | start
  /-- `err == nil`, before `atomic.AddUint64` -/
  | labelled
  /-- `err != nil`, before `unlabelledMu.Lock()` -/
  | failed
  /-- holds `unlabelledMu`, before reading `failedPRs.prs` -/
  | locked
  /-- has read `failedPRs.prs`, before assigning the appended slice -/
  | appending (read : List Issue)
  /-- has assigned, before the deferred `unlabelledMu.Unlock()` -/
  | unlocking
  /-- returned, `wg.Done()` executed -/
  | done
deriving DecidableEq

/-- One goroutine spawned by `Label`. -/
structure Goroutine where
  issue : Issue
  pc : Pc
deriving DecidableEq

/-- The state of a run of `Label` after `mapGitLabels`: the batches still to
come out of `issueChan`, the rest of the batch being ranged over, whether the
main goroutine has left the loops and stands at `wg.Wait()`, the goroutines
spawned so far, whether `unlabelledMu` is held, `failedPRs.prs`,
`totalLabelledPRs`, and the `Issues.Edit` calls made so far. -/
structure LabelState where
  issueChan : List (List Issue)
  batch : List Issue
  waiting : Bool
  units : List Goroutine
  unlabelledMu : Bool
  prs : List Issue
  totalLabelledPRs : Nat
  edits : List EditCall
deriving DecidableEq

/-- Who takes the next step. -/
inductive Action where
  | main
  | unit (i : Nat)
deriving DecidableEq

/-- The state `Label` starts its loops in, given the batches `issueChan` delivers. -/
def LabelState.init (batches : List (List Issue)) : LabelState :=
  { issueChan := batches, batch := [], waiting := false, units := [],
    unlabelledMu := false, prs := [], totalLabelledPRs := 0, edits := [] }

/-- One step of the main goroutine: take the next issue of the batch and spawn
a goroutine if it is a pull request, or receive the next batch, or leave the
loop once `issueChan` is closed. -/
def stepMain (st : LabelState) : Option LabelState :=
  if st.waiting then none
  else
    match st.batch with
    | issue :: rest =>
      if issue.isPullRequest then
        some { st with batch := rest, units := st.units ++ [⟨issue, Pc.start⟩] }
      else
        some { st with batch := rest }
    | [] =>
      match st.issueChan with
      | issues :: more => some { st with issueChan := more, batch := issues }
      | [] => some { st with waiting := true }

/-- One step of goroutine `g`, the `i`-th spawned; `none` when it cannot move
(it has returned, or it waits for `unlabelledMu`). -/
def stepGoroutine (lib : GoLib) (l : Labeller) (i : Nat) (g : Goroutine) (st : LabelState) :
    Option LabelState :=
  match g.pc with
  | Pc.start =>
    let (calls, err) := applyLabelToIssue lib l g.issue
    some { st with
      edits := st.edits ++ calls,
      units := st.units.set i ⟨g.issue, if err.isSome then Pc.failed else Pc.labelled⟩ }
  | Pc.labelled =>
    some { st with
      totalLabelledPRs := (st.totalLabelledPRs + 1) % 18446744073709551616,
      units := st.units.set i ⟨g.issue, Pc.done⟩ }
  | Pc.failed =>
    if st.unlabelledMu then none
    else some { st with unlabelledMu := true, units := st.units.set i ⟨g.issue, Pc.locked⟩ }
  | Pc.locked =>
    some { st with units := st.units.set i ⟨g.issue, Pc.appending st.prs⟩ }
  | Pc.appending read =>
    some { st with prs := read ++ [g.issue], units := st.units.set i ⟨g.issue, Pc.unlocking⟩ }
  | Pc.unlocking =>
    some { st with unlabelledMu := false, units := st.units.set i ⟨g.issue, Pc.done⟩ }
  | Pc.done => none

/-- One step of a run of `Label`. -/
def step (lib : GoLib) (l : Labeller) (a : Action) (st : LabelState) : Option LabelState :=
  match a with
  | Action.main => stepMain st
  | Action.unit i =>
    match st.units[i]? with
    | none => none
    | some g => stepGoroutine lib l i g st

/-- A run of `Label` along a schedule; `none` when the schedule asks for a step
that cannot be taken. -/
def exec (lib : GoLib) (l : Labeller) : List Action → LabelState → Option LabelState
  | [], st => some st
  | a :: rest, st =>
    match step lib l a st with
    | none => none
    | some st' => exec lib l rest st'

/-- The state in which `wg.Wait()` returns: the main goroutine waits and every
spawned goroutine has returned. -/
def LabelState.finished (st : LabelState) : Bool :=
  st.waiting && st.units.all (fun g => g.pc == Pc.done)

/-- The lines `Label` prints after `wg.Wait()`: the count, and title and login
of every entry of `failedPRs.prs`. -/
def summary (st : LabelState) : Nat × List (String × String) :=
  (st.totalLabelledPRs, st.prs.map (fun issue => (issue.title, issue.login)))

/-- A goroutine run on its own until it returns or blocks, for at most `n` steps. -/
def runGoroutine (lib : GoLib) (l : Labeller) (i : Nat) : Nat → LabelState → LabelState
  | 0, st => st
  | n + 1, st =>
    match step lib l (Action.unit i) st with
    | none => st
    | some st' => runGoroutine lib l i n st'

/-- The method `Labeller.Label` along a schedule: `mapGitLabels` first, then the
loops over the batches `parseRepoPRs` sends. `none` when `parseRepoPRs` needs
more than `fuel` requests or the schedule cannot be followed. -/
def Label (lib : GoLib) (l : Labeller) (fuel : Nat) (schedule : List Action) :
    Option LabelState :=
  let l := { l with gitLabelMap := mapGitLabels lib l }
  match parseRepoPRs l fuel with
  | none => none
  | some events => exec lib l schedule (LabelState.init (batchesOf events))

/-- The events of `parseRepoPRs` when page `k` is the first empty one. -/
def pagesTrace (l : Labeller) (first : Nat) (n : Nat) (k : Nat) : List ChanEvent :=
  (List.range n).flatMap (fun i =>
    [ChanEvent.request (pageOptions ((first + i : Nat) : Int)),
     ChanEvent.send (l.client.listByRepo (pageOptions ((first + i : Nat) : Int)))]) ++
  [ChanEvent.request (pageOptions (k : Int)), ChanEvent.close]

/-- Whether `applyLabelToIssue` finds a tag for the issue. -/
def isMatched (lib : GoLib) (l : Labeller) (issue : Issue) : Bool :=
  decide (matchWithTag lib l issue.title ≠ "unknown")

/-- The `Issues.Edit` call made for a matched issue. -/
def editOf (lib : GoLib) (l : Labeller) (issue : Issue) : EditCall :=
  { number := issue.number, labels := [l.gitLabelMap.index (matchWithTag lib l issue.title)] }

/-- The goroutine has added to `totalLabelledPRs`. -/
def Goroutine.counted (lib : GoLib) (l : Labeller) (g : Goroutine) : Bool :=
  match g.pc with
  | Pc.done => isMatched lib l g.issue
  | _ => false

/-- The goroutine has appended its issue to `failedPRs.prs`. -/
def Goroutine.recorded (lib : GoLib) (l : Labeller) (g : Goroutine) : Bool :=
  match g.pc with
  | Pc.unlocking => !isMatched lib l g.issue
  | Pc.done => !isMatched lib l g.issue
  | _ => false

/-- The goroutine has made its `Issues.Edit` call. -/
def Goroutine.edited (lib : GoLib) (l : Labeller) (g : Goroutine) : Bool :=
  match g.pc with
  | Pc.start => false
  | _ => isMatched lib l g.issue

/-- The goroutine holds `unlabelledMu`. -/
def Goroutine.holdsMu (g : Goroutine) : Bool :=
  match g.pc with
  | Pc.locked => true
  | Pc.appending _ => true
  | Pc.unlocking => true
  | _ => false

/-- The branch the goroutine is on agrees with what the matcher says of its issue. -/
def Goroutine.onBranch (lib : GoLib) (l : Labeller) (g : Goroutine) : Bool :=
  match g.pc with
  | Pc.start => true
  | Pc.done => true
  | Pc.labelled => isMatched lib l g.issue
  | _ => !isMatched lib l g.issue

/-- What holds in every state of a run of `Label` over the batches `batches`. -/
structure Inv (lib : GoLib) (l : Labeller) (batches : List (List Issue)) (st : LabelState) :
    Prop where
  issues : st.units.map Goroutine.issue ++
      (st.batch ++ st.issueChan.flatten).filter Issue.isPullRequest =
        batches.flatten.filter Issue.isPullRequest
  waiting : st.waiting = true → st.batch = [] ∧ st.issueChan = []
  total : st.totalLabelledPRs = st.units.countP (Goroutine.counted lib l) % 18446744073709551616
  prs : st.prs.Perm ((st.units.filter (Goroutine.recorded lib l)).map Goroutine.issue)
  edits : st.edits.Perm
      ((st.units.filter (Goroutine.edited lib l)).map (fun g => editOf lib l g.issue))
  mutex : st.units.countP Goroutine.holdsMu = if st.unlabelledMu then 1 else 0
  read : ∀ g ∈ st.units, ∀ r, g.pc = Pc.appending r → r = st.prs
  branch : ∀ g ∈ st.units, g.onBranch lib l = true

/-- The pull requests among the issues of the batches, in the order `Label` meets them. -/
def pullRequests (batches : List (List Issue)) : List Issue :=
  batches.flatten.filter Issue.isPullRequest

/-- The remote of the examples: three pages of closed issues, the third empty. -/
def demoClient : Client :=
  { listLabels := ["bugfix", "documentation", "wontfix"],
    listByRepo := fun opts =>
      if opts.page = 1 then
        [⟨1, "Fix: crash on start", "ann", true, []⟩, ⟨2, "Question about docs", "bo", false, []⟩]
      else if opts.page = 2 then [⟨3, "Bump version", "cy", true, ["old"]⟩]
      else [],
    edit := fun _ => false }

/-- The labeller of the examples, before `mapGitLabels`. -/
def demoLabeller : Labeller := ⟨demoClient, GoMap.empty, tags⟩

/-- The batches `parseRepoPRs` sends for `demoClient`. -/
def demoBatches : List (List Issue) :=
  [[⟨1, "Fix: crash on start", "ann", true, []⟩, ⟨2, "Question about docs", "bo", false, []⟩],
   [⟨3, "Bump version", "cy", true, ["old"]⟩]]

/-- A schedule for `demoBatches` in which the two goroutines interleave. -/
def demoSchedule : List Action :=
  [Action.main, Action.main, Action.main, Action.main, Action.main, Action.main,
   Action.unit 1, Action.unit 0, Action.unit 1, Action.unit 1, Action.unit 0,
   Action.unit 1, Action.unit 1]

/-- The state `demoSchedule` ends in. -/
def demoFinal : LabelState :=
  { issueChan := [], batch := [], waiting := true,
    units := [⟨⟨1, "Fix: crash on start", "ann", true, []⟩, Pc.done⟩,
              ⟨⟨3, "Bump version", "cy", true, ["old"]⟩, Pc.done⟩],
    unlabelledMu := false,
    prs := [⟨3, "Bump version", "cy", true, ["old"]⟩],
    totalLabelledPRs := 1,
    edits := [⟨1, [""]⟩] }

/-- The steps a goroutine has left at most. -/
def Pc.stepsLeft : Pc → Nat
  | Pc.start => 6
  | Pc.failed => 4
  | Pc.locked => 3
  | Pc.appending _ => 2
  | Pc.unlocking => 1
  | Pc.labelled => 1
  | Pc.done => 0

/-- A bound on the number of steps a run can still take. -/
def LabelState.stepsLeft (st : LabelState) : Nat :=
  (if st.waiting then 0 else 1) + 7 * st.batch.length +
    (st.issueChan.map (fun issues => 7 * issues.length + 1)).sum +
    (st.units.map (fun g => g.pc.stepsLeft)).sum

/-- The issue as the listing shows it, without the labels it carries. -/
def Issue.withoutLabels (issue : Issue) : Issue := { issue with labels := [] }

/-- The remote of the examples after a first run: the pull requests carry new labels. -/
def demoClientAfter : Client :=
  { listLabels := ["bugfix", "documentation", "wontfix"],
    listByRepo := fun opts =>
      if opts.page = 1 then
        [⟨1, "Fix: crash on start", "ann", true, ["wontfix"]⟩,
         ⟨2, "Question about docs", "bo", false, []⟩]
      else if opts.page = 2 then [⟨3, "Bump version", "cy", true, ["old"]⟩]
      else [],
    edit := fun _ => true }

/-- A second schedule, in which the goroutines run one after the other. -/
def demoScheduleAfter : List Action :=
  [Action.main, Action.main, Action.main, Action.unit 0, Action.unit 0,
   Action.main, Action.main, Action.main,
   Action.unit 1, Action.unit 1, Action.unit 1, Action.unit 1, Action.unit 1]

/-- The state `Label` ends in on `demoClient` along `demoSchedule`. -/
def demoLabelled : LabelState :=
  { demoFinal with edits := [⟨1, ["wontfix"]⟩] }

/-- The state `Label` ends in on `demoClientAfter` along `demoScheduleAfter`. -/
def demoLabelledAfter : LabelState :=
  { issueChan := [], batch := [], waiting := true,
    units := [⟨⟨1, "Fix: crash on start", "ann", true, ["wontfix"]⟩, Pc.done⟩,
              ⟨⟨3, "Bump version", "cy", true, ["old"]⟩, Pc.done⟩],
    unlabelledMu := false,
    prs := [⟨3, "Bump version", "cy", true, ["old"]⟩],
    totalLabelledPRs := 1,
    edits := [⟨1, ["wontfix"]⟩] }

/-! ## Theorems -/

theorem containsRun_iff (p t : List Char) : containsRun p t = true ↔ p <:+: t := by
  induction t with
  | nil => simp [containsRun]
  | cons c cs ih =>
    simp only [containsRun, Bool.or_eq_true, ih, List.infix_cons_iff, List.isPrefixOf_iff_prefix]

theorem isLower_not_meta (c : Char) (h : c.isLower = true) : metaChars.contains c = false := by
  by_contra hc
  simp only [Bool.not_eq_false, List.contains_iff_exists_mem_beq, beq_iff_eq] at hc
  obtain ⟨d, hd, rfl⟩ := hc
  simp only [metaChars, List.mem_cons, List.mem_singleton, List.not_mem_nil, or_false] at hd
  rcases hd with h1 | h1 | h1 | h1 | h1 | h1 | h1 | h1 | h1 | h1 | h1 | h1 | h1 | h1 <;>
    (subst h1; revert h; decide)

theorem isLiteral_of_isLowerToken (s : String) (h : isLowerToken s = true) :
    isLiteral s = true := by
  simp only [isLowerToken, isLiteral, List.all_eq_true] at h ⊢
  intro c hc
  have hm := isLower_not_meta c (h c hc)
  simpa using hm

/-- A token of lowercase letters matches a text exactly when it occurs in it. -/
theorem regexpMatch_lowerToken (lib : GoLib) (tag text : String)
    (h : isLowerToken tag = true) :
    regexpMatch lib tag text = true ↔ tag.data <:+: text.data := by
  simp [regexpMatch, isLiteral_of_isLowerToken tag h, containsRun_iff]

theorem matchLoop_eq_unknown_of_none (lib : GoLib) (title : String) (ts : List String)
    (h : ∀ tag ∈ ts, regexpMatch lib tag (toLower lib title) = false) :
    matchLoop lib title ts = "unknown" := by
  induction ts with
  | nil => rfl
  | cons t rest ih =>
    have ht := h t (List.mem_cons_self _ _)
    simp only [matchLoop, ht, Bool.false_eq_true, if_false]
    exact ih (fun tag htag => h tag (List.mem_cons_of_mem _ htag))

theorem matchLoop_first (lib : GoLib) (title : String) (before after : List String)
    (tag : String) (hbefore : ∀ u ∈ before, regexpMatch lib u (toLower lib title) = false)
    (htag : regexpMatch lib tag (toLower lib title) = true) :
    matchLoop lib title (before ++ tag :: after) = tag := by
  induction before with
  | nil => simp [matchLoop, htag]
  | cons t rest ih =>
    have ht := hbefore t (List.mem_cons_self _ _)
    simp only [List.cons_append, matchLoop, ht, Bool.false_eq_true, if_false]
    exact ih (fun u hu => hbefore u (List.mem_cons_of_mem _ hu))

/-- The result of the loop is the sentinel or one of the tags, and a tag only when it matched. -/
theorem matchLoop_mem (lib : GoLib) (title : String) (ts : List String) :
    matchLoop lib title ts = "unknown" ∨
      (matchLoop lib title ts ∈ ts ∧
        regexpMatch lib (matchLoop lib title ts) (toLower lib title) = true) := by
  induction ts with
  | nil => left; rfl
  | cons t rest ih =>
    by_cases ht : regexpMatch lib t (toLower lib title) = true
    · right
      simp [matchLoop, ht]
    · simp only [matchLoop, ht, if_false]
      rcases ih with h | ⟨h1, h2⟩
      · left; exact h
      · right; exact ⟨List.mem_cons_of_mem _ h1, h2⟩

theorem matchLoop_unknown_none (lib : GoLib) (title : String) (ts : List String)
    (hno : "unknown" ∉ ts) (h : matchLoop lib title ts = "unknown") :
    ∀ tag ∈ ts, regexpMatch lib tag (toLower lib title) = false := by
  induction ts with
  | nil => simp
  | cons t rest ih =>
    have hne : t ≠ "unknown" := fun e => hno (e ▸ List.mem_cons_self _ _)
    have hrest : "unknown" ∉ rest := fun e => hno (List.mem_cons_of_mem _ e)
    by_cases ht : regexpMatch lib t (toLower lib title) = true
    · simp [matchLoop, ht] at h
      exact absurd h hne
    · simp only [matchLoop, ht, if_false] at h
      intro tag htag
      rcases List.mem_cons.1 htag with rfl | hmem
      · simpa using ht
      · exact ih hrest h tag hmem

/-- C1 (as amended): for a vocabulary of lowercase-letter tokens, `matchWithTag`
returns the earliest tag in vocabulary order that occurs in the lower-cased
title, and returns `"unknown"` when no tag occurs in it; when `"unknown"` is not
itself one of the tags, it returns `"unknown"` only then. With the vocabulary
`[chore, docs, feat, fix]` the title `"Fix: docs typo"` yields `"docs"`. -/
theorem matchWithTag_earliest_tag (lib : GoLib) (l : Labeller) (title : String)
    (hlow : ∀ tag ∈ l.tags, isLowerToken tag = true) :
    (∀ (before after : List String) (tag : String), l.tags = before ++ tag :: after →
        tag.data <:+: (toLower lib title).data →
        (∀ u ∈ before, ¬ u.data <:+: (toLower lib title).data) →
        matchWithTag lib l title = tag) ∧
    ((∀ tag ∈ l.tags, ¬ tag.data <:+: (toLower lib title).data) →
        matchWithTag lib l title = "unknown") ∧
    ("unknown" ∉ l.tags → matchWithTag lib l title = "unknown" →
        ∀ tag ∈ l.tags, ¬ tag.data <:+: (toLower lib title).data) ∧
    (∀ (c : Client) (m : GoMap),
        matchWithTag lib ⟨c, m, ["chore", "docs", "feat", "fix"]⟩ "Fix: docs typo" = "docs") := by
  refine ⟨?_, ?_, ?_, ?_⟩
  · intro before after tag hsplit htag hbefore
    have hmem : ∀ u ∈ before, u ∈ l.tags := fun u hu => by
      rw [hsplit]; exact List.mem_append_left _ hu
    have htagmem : tag ∈ l.tags := by rw [hsplit]; simp
    unfold matchWithTag
    rw [hsplit]
    apply matchLoop_first
    · intro u hu
      have hn := hbefore u hu
      rw [← regexpMatch_lowerToken lib u _ (hlow u (hmem u hu))] at hn
      simpa using hn
    · exact (regexpMatch_lowerToken lib tag _ (hlow tag htagmem)).2 htag
  · intro hnone
    apply matchLoop_eq_unknown_of_none
    intro tag htag
    have hn := hnone tag htag
    rw [← regexpMatch_lowerToken lib tag _ (hlow tag htag)] at hn
    simpa using hn
  · intro hno h tag htag hocc
    have hf := matchLoop_unknown_none lib title l.tags hno h tag htag
    rw [(regexpMatch_lowerToken lib tag _ (hlow tag htag)).2 hocc] at hf
    exact Bool.noConfusion hf
  · intro c m
    rfl

/-- C1, on the fixed vocabulary and the title `"Fix: docs typo"`. -/
theorem matchWithTag_earliest_tag_witness :
    (∀ tag ∈ tags, isLowerToken tag = true) ∧
    (matchWithTag asciiLib ⟨noClient, GoMap.empty, tags⟩ "Fix: docs typo" = "docs") ∧
    ("unknown" ∉ tags) := by
  have hlow : ∀ tag ∈ tags, isLowerToken tag = true := by decide
  refine ⟨hlow, ?_, by decide⟩
  exact (matchWithTag_earliest_tag asciiLib ⟨noClient, GoMap.empty, tags⟩ "Fix: docs typo"
    hlow).1 ["chore"] ["feat", "fix", "refactor", "style", "test"] "docs" rfl
    (by decide) (by decide)

/-- C1 as stated fails when the vocabulary holds the token `"unknown"`: on the
title `"unknown"` the tag occurs, and the result is the string the sentinel is. -/
theorem matchWithTag_sentinel_clash :
    (∀ tag ∈ ["unknown"], isLowerToken tag = true) ∧
    ¬ (matchWithTag asciiLib ⟨noClient, GoMap.empty, ["unknown"]⟩ "unknown" = "unknown" ↔
        ∀ tag ∈ ["unknown"], ¬ tag.data <:+: (toLower asciiLib "unknown").data) := by
  refine ⟨by decide, ?_⟩
  intro h
  exact h.1 rfl "unknown" (List.mem_singleton.2 rfl) (by decide)

/-- C8: for a vocabulary of non-empty lowercase-letter tokens, `matchWithTag` on
the empty title returns `"unknown"`. -/
theorem matchWithTag_empty_title (lib : GoLib) (l : Labeller)
    (h : ∀ tag ∈ l.tags, tag ≠ "" ∧ isLowerToken tag = true) :
    matchWithTag lib l "" = "unknown" := by
  apply matchLoop_eq_unknown_of_none
  intro tag htag
  obtain ⟨hne, hlow⟩ := h tag htag
  have hiff := regexpMatch_lowerToken lib tag (toLower lib "") hlow
  by_contra hc
  have ht : regexpMatch lib tag (toLower lib "") = true := by simpa using hc
  have hin := hiff.1 ht
  have hnil : tag.data = [] := by simpa [toLower] using hin
  apply hne
  cases tag
  simp_all

/-- C8 on the fixed vocabulary. -/
theorem matchWithTag_empty_title_witness :
    (∀ tag ∈ tags, tag ≠ "" ∧ isLowerToken tag = true) ∧
    matchWithTag asciiLib ⟨noClient, GoMap.empty, tags⟩ "" = "unknown" :=
  ⟨by decide, matchWithTag_empty_title asciiLib ⟨noClient, GoMap.empty, tags⟩ (by decide)⟩

theorem foldl_insert_lookup (classify : String → String) (names : List String) (t : String) :
    ∀ m : GoMap,
      (names.foldl (fun acc name => acc.insert (classify name) name) m) t =
        ((names.filter (fun name => classify name = t)).getLast?).or (m t) := by
  induction names with
  | nil => intro m; simp
  | cons name rest ih =>
    intro m
    rw [List.foldl_cons, ih]
    by_cases hc : classify name = t
    · have hins : (m.insert (classify name) name) t = some name := by
        simp [GoMap.insert, hc]
      rw [hins, List.filter_cons_of_pos (by simpa using hc), List.getLast?_cons]
      cases (List.filter (fun name => decide (classify name = t)) rest).getLast? <;> simp
    · have hins : (m.insert (classify name) name) t = m t := by
        simp only [GoMap.insert]
        rw [if_neg (fun e => hc e.symm)]
      rw [hins, List.filter_cons_of_neg (by simpa using hc)]

theorem foldl_insert_keys (classify : String → String) (names : List String) (t : String) :
    ∀ m : GoMap,
      (names.foldl (fun acc name => acc.insert (classify name) name) m) t ≠ none →
        m t ≠ none ∨ ∃ name ∈ names, classify name = t := by
  intro m h
  rw [foldl_insert_lookup] at h
  cases hlast : (names.filter (fun name => classify name = t)).getLast? with
  | none => left; simpa [hlast] using h
  | some v =>
    right
    have hv := List.mem_of_getLast?_eq_some hlast
    rw [List.mem_filter] at hv
    exact ⟨v, hv.1, by simpa using hv.2⟩

/-- C3: at every key `t` (in particular at every tag) the map built by
`mapGitLabels` holds the last label name, in listing order, that `matchWithTag`
classifies to `t`, and no entry when no listed name classifies to `t`. The
labels `["docs", "feature-x"]` with the vocabulary `["docs", "feat"]` give the
map with exactly the entries `docs -> docs` and `feat -> feature-x`. -/
theorem mapGitLabels_last_wins (lib : GoLib) (l : Labeller) :
    (∀ t : String, mapGitLabels lib l t =
        (l.client.listLabels.filter (fun name => matchWithTag lib l name = t)).getLast?) ∧
    (∀ (pages : IssueListByRepoOptions → List Issue) (edit : EditCall → Bool) (m : GoMap)
        (k : String),
        mapGitLabels lib ⟨⟨["docs", "feature-x"], pages, edit⟩, m, ["docs", "feat"]⟩ k =
          if k = "docs" then some "docs" else if k = "feat" then some "feature-x" else none) := by
  constructor
  · intro t
    unfold mapGitLabels
    rw [foldl_insert_lookup (matchWithTag lib l)]
    simp [GoMap.empty]
  · intro pages edit m k
    have h1 : matchWithTag lib ⟨⟨["docs", "feature-x"], pages, edit⟩, m, ["docs", "feat"]⟩
        "docs" = "docs" := rfl
    have h2 : matchWithTag lib ⟨⟨["docs", "feature-x"], pages, edit⟩, m, ["docs", "feat"]⟩
        "feature-x" = "feat" := rfl
    simp only [mapGitLabels, List.foldl_cons, List.foldl_nil, h1, h2, GoMap.insert, GoMap.empty]
    by_cases hk : k = "feat"
    · subst hk; simp
    · simp [hk]

/-- C4 (as amended): every key of the map built by `mapGitLabels` is a tag of the
vocabulary or the sentinel `"unknown"`, and what it holds is a listed label
name that `matchWithTag` classifies to the key; and every listed label is
entered under the result of `matchWithTag` on its name, so a listed label whose
name matches no tag is entered too, under the key `"unknown"`, where the map
then holds the last such label of the listing. -/
theorem mapGitLabels_keys (lib : GoLib) (l : Labeller) :
    (∀ t : String, mapGitLabels lib l t ≠ none →
      (t ∈ l.tags ∨ t = "unknown") ∧
      (∃ name ∈ l.client.listLabels,
        matchWithTag lib l name = t ∧ mapGitLabels lib l t = some name)) ∧
    (∀ name ∈ l.client.listLabels, mapGitLabels lib l (matchWithTag lib l name) ≠ none) ∧
    (∀ name ∈ l.client.listLabels, matchWithTag lib l name = "unknown" →
      mapGitLabels lib l "unknown" ≠ none ∧
      mapGitLabels lib l "unknown" =
        (l.client.listLabels.filter
          (fun other => matchWithTag lib l other = "unknown")).getLast?) := by
  have hlook : ∀ key : String, mapGitLabels lib l key =
      (l.client.listLabels.filter (fun name => matchWithTag lib l name = key)).getLast? := by
    intro key
    unfold mapGitLabels
    rw [foldl_insert_lookup (matchWithTag lib l)]
    simp [GoMap.empty]
  have hentered : ∀ name ∈ l.client.listLabels,
      mapGitLabels lib l (matchWithTag lib l name) ≠ none := by
    intro name hname
    rw [hlook (matchWithTag lib l name)]
    intro hnone
    rw [List.getLast?_eq_none_iff] at hnone
    have hin : name ∈ l.client.listLabels.filter
        (fun other => matchWithTag lib l other = matchWithTag lib l name) := by
      rw [List.mem_filter]
      exact ⟨hname, by simp⟩
    rw [hnone] at hin
    exact absurd hin (List.not_mem_nil _)
  refine ⟨?_, hentered, ?_⟩
  · intro t h
    constructor
    · unfold mapGitLabels at h
      rcases foldl_insert_keys (matchWithTag lib l) _ t GoMap.empty h with h0 | ⟨name, _, hname⟩
      · exact absurd rfl h0
      · rcases matchLoop_mem lib name l.tags with hu | ⟨hm, _⟩
        · right; rw [← hname]; exact hu
        · left; rw [← hname]; exact hm
    · cases hlast : (l.client.listLabels.filter
          (fun name => matchWithTag lib l name = t)).getLast? with
      | none => exact absurd ((hlook t).trans hlast) h
      | some name =>
        have hmem := List.mem_of_getLast?_eq_some hlast
        rw [List.mem_filter] at hmem
        exact ⟨name, hmem.1, by simpa using hmem.2, (hlook t).trans hlast⟩
  · intro name hname hclass
    have hne := hentered name hname
    rw [hclass] at hne
    exact ⟨hne, hlook "unknown"⟩

/-- C4 on two remotes: with the labels of the example the key `"fix"` is a tag,
and with the single label `"bug"`, which matches no tag of the fixed
vocabulary, the map has an entry under `"unknown"`. -/
theorem mapGitLabels_keys_witness :
    mapGitLabels asciiLib demoLabeller "fix" ≠ none ∧
    ("fix" ∈ demoLabeller.tags ∨ "fix" = "unknown") ∧
    "bug" ∈ (⟨⟨["bug"], fun _ => [], fun _ => false⟩, GoMap.empty, tags⟩ : Labeller).client.listLabels ∧
    matchWithTag asciiLib ⟨⟨["bug"], fun _ => [], fun _ => false⟩, GoMap.empty, tags⟩ "bug"
      = "unknown" ∧
    mapGitLabels asciiLib ⟨⟨["bug"], fun _ => [], fun _ => false⟩, GoMap.empty, tags⟩ "unknown"
      ≠ none :=
  ⟨by decide,
    ((mapGitLabels_keys asciiLib demoLabeller).1 "fix" (by decide)).1,
    by decide, by decide,
    ((mapGitLabels_keys asciiLib ⟨⟨["bug"], fun _ => [], fun _ => false⟩, GoMap.empty, tags⟩).2.2
      "bug" (by decide) (by decide)).1⟩

/-- C4 as stated fails: with the fixed vocabulary and the single repository
label `"bug"` the map has the key `"unknown"`, which is not a tag. -/
theorem mapGitLabels_key_not_tag :
    ¬ ∀ t : String,
      mapGitLabels asciiLib ⟨⟨["bug"], fun _ => [], fun _ => false⟩, GoMap.empty, tags⟩ t
        ≠ none → t ∈ tags := by
  intro h
  have hkey := h "unknown" (by decide)
  revert hkey
  decide

theorem incrInt_of_lt (p : Nat) (h : p + 1 < 9223372036854775808) :
    incrInt (p : Int) = ((p + 1 : Nat) : Int) := by
  unfold incrInt
  omega

theorem parseLoop_trace (l : Labeller) (k : Nat) (hk : k < 9223372036854775808)
    (hne : ∀ p : Nat, 1 ≤ p → p < k → l.client.listByRepo (pageOptions (p : Int)) ≠ [])
    (hempty : l.client.listByRepo (pageOptions (k : Int)) = []) :
    ∀ (n p fuel : Nat), 1 ≤ p → p + n = k → n < fuel →
      parseLoop l fuel (p : Int) = some (pagesTrace l p n k) := by
  intro n
  induction n with
  | zero =>
    intro p fuel _ hp hfuel
    obtain ⟨f, rfl⟩ : ∃ f, fuel = f + 1 := ⟨fuel - 1, by omega⟩
    have hpk : p = k := by omega
    subst hpk
    simp [parseLoop, hempty, pagesTrace]
  | succ n ih =>
    intro p fuel hp1 hp hfuel
    obtain ⟨f, rfl⟩ : ∃ f, fuel = f + 1 := ⟨fuel - 1, by omega⟩
    have hpage := hne p hp1 (by omega)
    have hlen : (l.client.listByRepo (pageOptions (p : Int))).length > 0 :=
      List.length_pos.2 hpage
    have hrec := ih (p + 1) f (by omega) (by omega) (by omega)
    rw [parseLoop, if_pos hlen, incrInt_of_lt p (by omega), hrec]
    simp only [Option.map_some', pagesTrace, List.range_succ_eq_map, List.flatMap_cons,
      List.flatMap_map, Nat.add_zero, List.cons_append, List.nil_append, Option.some.injEq,
      List.cons.injEq, true_and]
    congr 2
    funext i
    simp [Function.comp, Nat.succ_eq_add_one, Nat.add_assoc, Nat.add_comm 1 i]

theorem inv_init (lib : GoLib) (l : Labeller) (batches : List (List Issue)) :
    Inv lib l batches (LabelState.init batches) := by
  constructor <;> simp [LabelState.init]

theorem split_at_index {α : Type} (us : List α) (i : Nat) (g : α) (h : us[i]? = some g) :
    ∃ pre post, us = pre ++ g :: post ∧ ∀ g', us.set i g' = pre ++ g' :: post := by
  induction us generalizing i with
  | nil => simp at h
  | cons u rest ih =>
    cases i with
    | zero =>
      simp only [List.getElem?_cons_zero, Option.some.injEq] at h
      subst h
      exact ⟨[], rest, rfl, fun _ => rfl⟩
    | succ j =>
      simp only [List.getElem?_cons_succ] at h
      obtain ⟨pre, post, h1, h2⟩ := ih j h
      refine ⟨u :: pre, post, by rw [h1]; rfl, fun g' => ?_⟩
      simp [List.set_cons_succ, h2]

theorem inv_stepMain (lib : GoLib) (l : Labeller) (batches : List (List Issue))
    (st st' : LabelState) (hinv : Inv lib l batches st) (h : stepMain st = some st') :
    Inv lib l batches st' := by
  obtain ⟨chan, batch, waiting, units, mu, prs, total, edits⟩ := st
  obtain ⟨hi, hw, ht, hp, he, hm, hr, hb⟩ := hinv
  simp only at hi hw ht hp he hm hr hb
  unfold Cmd.stepMain at h
  simp only at h
  cases waiting with
  | true => simp at h
  | false =>
    simp only [Bool.false_eq_true, if_false] at h
    cases batch with
    | cons issue rest =>
      simp only at h
      by_cases hpr : issue.isPullRequest = true
      · simp only [hpr, if_true, Option.some.injEq] at h
        subst h
        constructor
        · simpa [hpr, List.filter_cons] using hi
        · simp
        · simpa [List.countP_append, List.countP_cons, Goroutine.counted] using ht
        · simpa [List.filter_append, List.filter_cons, Goroutine.recorded] using hp
        · simpa [List.filter_append, List.filter_cons, Goroutine.edited] using he
        · simpa [List.countP_append, List.countP_cons, Goroutine.holdsMu] using hm
        · intro g hg r hr'
          rcases List.mem_append.1 hg with hg | hg
          · exact hr g hg r hr'
          · simp only [List.mem_singleton] at hg
            subst hg
            cases hr'
        · intro g hg
          rcases List.mem_append.1 hg with hg | hg
          · exact hb g hg
          · simp only [List.mem_singleton] at hg
            subst hg
            rfl
      · simp only [hpr, Bool.false_eq_true, if_false, Option.some.injEq] at h
        subst h
        exact ⟨by simpa [hpr, List.filter_cons] using hi, by simp, ht, hp, he, hm, hr, hb⟩
    | nil =>
      cases chan with
      | cons issues more =>
        simp only [Option.some.injEq] at h
        subst h
        exact ⟨by simpa using hi, by simp, ht, hp, he, hm, hr, hb⟩
      | nil =>
        simp only [Option.some.injEq] at h
        subst h
        exact ⟨hi, by simp, ht, hp, he, hm, hr, hb⟩

theorem perm_insert {α : Type} {xs front back : List α} (a : α)
    (h : xs.Perm (front ++ back)) : (xs ++ [a]).Perm (front ++ a :: back) :=
  (List.perm_append_singleton a xs).trans ((List.Perm.cons a h).trans List.perm_middle.symm)

theorem inv_stepGoroutine (lib : GoLib) (l : Labeller) (batches : List (List Issue))
    (st st' : LabelState) (i : Nat) (g : Goroutine) (hinv : Inv lib l batches st)
    (hg : st.units[i]? = some g) (h : stepGoroutine lib l i g st = some st') :
    Inv lib l batches st' := by
  obtain ⟨pre, post, hus, hset⟩ := split_at_index st.units i g hg
  obtain ⟨chan, batch, waiting, units, mu, prs, total, edits⟩ := st
  obtain ⟨hi, hw, ht, hp, he, hm, hr, hb⟩ := hinv
  simp only at hi hw ht hp he hm hr hb hus hset
  subst hus
  obtain ⟨issue, pc⟩ := g
  have hbg := hb ⟨issue, pc⟩ (by simp)
  have hbpre : ∀ g ∈ pre, g.onBranch lib l = true := fun g hg => hb g (by simp [hg])
  have hbpost : ∀ g ∈ post, g.onBranch lib l = true := fun g hg => hb g (by simp [hg])
  have hrpre : ∀ g ∈ pre, ∀ r, g.pc = Pc.appending r → r = prs :=
    fun g hg => hr g (by simp [hg])
  have hrpost : ∀ g ∈ post, ∀ r, g.pc = Pc.appending r → r = prs :=
    fun g hg => hr g (by simp [hg])
  have hrg := hr ⟨issue, pc⟩ (by simp)
  simp only [List.countP_append, List.countP_cons, List.filter_append, List.filter_cons,
    List.map_append] at ht hp he hm hi
  unfold Cmd.stepGoroutine at h
  cases pc with
  | start =>
    simp only [applyLabelToIssue] at h
    by_cases hmt : matchWithTag lib l issue.title = "unknown"
    · simp only [hmt, ne_eq, not_true_eq_false, if_false, Option.isSome_some, if_true,
        Option.some.injEq, hset, List.append_nil] at h
      subst h
      refine ⟨by simpa using hi, hw, ?_, ?_, ?_, ?_, ?_, ?_⟩
      · simpa [List.countP_append, List.countP_cons, Goroutine.counted] using ht
      · simpa [List.filter_append, List.filter_cons, Goroutine.recorded] using hp
      · simpa [List.filter_append, List.filter_cons, Goroutine.edited, isMatched, hmt] using he
      · simpa [List.countP_append, List.countP_cons, Goroutine.holdsMu] using hm
      · intro g hg r hr'
        simp only [List.mem_append, List.mem_cons] at hg
        rcases hg with hg | rfl | hg
        · exact hrpre g hg r hr'
        · cases hr'
        · exact hrpost g hg r hr'
      · intro g hg
        simp only [List.mem_append, List.mem_cons] at hg
        rcases hg with hg | rfl | hg
        · exact hbpre g hg
        · simp [Goroutine.onBranch, isMatched, hmt]
        · exact hbpost g hg
    · simp only [hmt, ne_eq, not_false_eq_true, if_true, Option.isSome_none, Bool.false_eq_true,
        if_false, Option.some.injEq, hset] at h
      subst h
      refine ⟨by simpa using hi, hw, ?_, ?_, ?_, ?_, ?_, ?_⟩
      · simpa [List.countP_append, List.countP_cons, Goroutine.counted] using ht
      · simpa [List.filter_append, List.filter_cons, Goroutine.recorded] using hp
      · simp only [Goroutine.edited, Bool.false_eq_true, if_false] at he
        simp only [List.filter_append, List.filter_cons, Goroutine.edited, isMatched, hmt,
          ne_eq, not_false_eq_true, decide_True, if_true, List.map_append, List.map_cons]
        exact perm_insert _ he
      · simpa [List.countP_append, List.countP_cons, Goroutine.holdsMu] using hm
      · intro g hg r hr'
        simp only [List.mem_append, List.mem_cons] at hg
        rcases hg with hg | rfl | hg
        · exact hrpre g hg r hr'
        · cases hr'
        · exact hrpost g hg r hr'
      · intro g hg
        simp only [List.mem_append, List.mem_cons] at hg
        rcases hg with hg | rfl | hg
        · exact hbpre g hg
        · simp [Goroutine.onBranch, isMatched, hmt]
        · exact hbpost g hg
  | labelled =>
    simp only [Option.some.injEq, hset] at h
    subst h
    have hmt : isMatched lib l issue = true := by simpa [Goroutine.onBranch] using hbg
    refine ⟨by simpa using hi, hw, ?_, ?_, ?_, ?_, ?_, ?_⟩
    · simp only [Goroutine.counted, Bool.false_eq_true, if_false, Nat.add_zero] at ht
      simp only [List.countP_append, List.countP_cons, Goroutine.counted, hmt, if_true]
      omega
    · simpa [List.filter_append, List.filter_cons, Goroutine.recorded, hmt] using hp
    · simpa [List.filter_append, List.filter_cons, Goroutine.edited, hmt] using he
    · simpa [List.countP_append, List.countP_cons, Goroutine.holdsMu] using hm
    · intro g hg r hr'
      simp only [List.mem_append, List.mem_cons] at hg
      rcases hg with hg | rfl | hg
      · exact hrpre g hg r hr'
      · cases hr'
      · exact hrpost g hg r hr'
    · intro g hg
      simp only [List.mem_append, List.mem_cons] at hg
      rcases hg with hg | rfl | hg
      · exact hbpre g hg
      · rfl
      · exact hbpost g hg
  | failed =>
    cases mu with
    | true => simp at h
    | false =>
      simp only [Bool.false_eq_true, if_false, Option.some.injEq, hset] at h
      subst h
      have hmt : isMatched lib l issue = false := by simpa [Goroutine.onBranch] using hbg
      refine ⟨by simpa using hi, hw, ?_, ?_, ?_, ?_, ?_, ?_⟩
      · simpa [List.countP_append, List.countP_cons, Goroutine.counted] using ht
      · simpa [List.filter_append, List.filter_cons, Goroutine.recorded] using hp
      · simpa [List.filter_append, List.filter_cons, Goroutine.edited, hmt] using he
      · simp only [Goroutine.holdsMu, Bool.false_eq_true, if_false, Nat.add_zero] at hm
        simp only [List.countP_append, List.countP_cons, Goroutine.holdsMu, if_true]
        omega
      · intro g hg r hr'
        simp only [List.mem_append, List.mem_cons] at hg
        rcases hg with hg | rfl | hg
        · exact hrpre g hg r hr'
        · cases hr'
        · exact hrpost g hg r hr'
      · intro g hg
        simp only [List.mem_append, List.mem_cons] at hg
        rcases hg with hg | rfl | hg
        · exact hbpre g hg
        · simpa [Goroutine.onBranch] using hmt
        · exact hbpost g hg
  | locked =>
    simp only [Option.some.injEq, hset] at h
    subst h
    have hmt : isMatched lib l issue = false := by simpa [Goroutine.onBranch] using hbg
    refine ⟨by simpa using hi, hw, ?_, ?_, ?_, ?_, ?_, ?_⟩
    · simpa [List.countP_append, List.countP_cons, Goroutine.counted] using ht
    · simpa [List.filter_append, List.filter_cons, Goroutine.recorded] using hp
    · simpa [List.filter_append, List.filter_cons, Goroutine.edited, hmt] using he
    · simpa [List.countP_append, List.countP_cons, Goroutine.holdsMu] using hm
    · intro g hg r hr'
      simp only [List.mem_append, List.mem_cons] at hg
      rcases hg with hg | rfl | hg
      · exact hrpre g hg r hr'
      · simp only [Pc.appending.injEq] at hr'
        exact hr'.symm
      · exact hrpost g hg r hr'
    · intro g hg
      simp only [List.mem_append, List.mem_cons] at hg
      rcases hg with hg | rfl | hg
      · exact hbpre g hg
      · simpa [Goroutine.onBranch] using hmt
      · exact hbpost g hg
  | appending r =>
    simp only [Option.some.injEq, hset] at h
    subst h
    have hmt : isMatched lib l issue = false := by simpa [Goroutine.onBranch] using hbg
    have hread : r = prs := hrg r rfl
    subst hread
    simp only [Goroutine.holdsMu, if_true] at hm
    have hmu : mu = true := by
      cases mu with
      | true => rfl
      | false => simp at hm
    subst hmu
    simp only [if_true] at hm
    have hpre0 : List.countP Goroutine.holdsMu pre = 0 := by omega
    have hpost0 : List.countP Goroutine.holdsMu post = 0 := by omega
    rw [List.countP_eq_zero] at hpre0 hpost0
    refine ⟨by simpa using hi, hw, ?_, ?_, ?_, ?_, ?_, ?_⟩
    · simpa [List.countP_append, List.countP_cons, Goroutine.counted] using ht
    · simp only [Goroutine.recorded, Bool.false_eq_true, if_false] at hp
      simp only [List.filter_append, List.filter_cons, Goroutine.recorded, hmt, Bool.not_false,
        if_true, List.map_append, List.map_cons]
      exact perm_insert _ hp
    · simpa [List.filter_append, List.filter_cons, Goroutine.edited, hmt] using he
    · simp only [List.countP_append, List.countP_cons, Goroutine.holdsMu, if_true]
      omega
    · intro g hg r hr'
      simp only [List.mem_append, List.mem_cons] at hg
      rcases hg with hg | rfl | hg
      · exact absurd (by simp [Goroutine.holdsMu, hr']) (hpre0 g hg)
      · cases hr'
      · exact absurd (by simp [Goroutine.holdsMu, hr']) (hpost0 g hg)
    · intro g hg
      simp only [List.mem_append, List.mem_cons] at hg
      rcases hg with hg | rfl | hg
      · exact hbpre g hg
      · simpa [Goroutine.onBranch] using hmt
      · exact hbpost g hg
  | unlocking =>
    simp only [Option.some.injEq, hset] at h
    subst h
    have hmt : isMatched lib l issue = false := by simpa [Goroutine.onBranch] using hbg
    simp only [Goroutine.holdsMu, if_true] at hm
    have hmu : mu = true := by
      cases mu with
      | true => rfl
      | false => simp at hm
    subst hmu
    simp only [if_true] at hm
    refine ⟨by simpa using hi, hw, ?_, ?_, ?_, ?_, ?_, ?_⟩
    · simpa [List.countP_append, List.countP_cons, Goroutine.counted, hmt] using ht
    · simpa [List.filter_append, List.filter_cons, Goroutine.recorded, hmt] using hp
    · simpa [List.filter_append, List.filter_cons, Goroutine.edited, hmt] using he
    · simp only [List.countP_append, List.countP_cons, Goroutine.holdsMu, Bool.false_eq_true,
        if_false]
      omega
    · intro g hg r hr'
      simp only [List.mem_append, List.mem_cons] at hg
      rcases hg with hg | rfl | hg
      · exact hrpre g hg r hr'
      · cases hr'
      · exact hrpost g hg r hr'
    · intro g hg
      simp only [List.mem_append, List.mem_cons] at hg
      rcases hg with hg | rfl | hg
      · exact hbpre g hg
      · rfl
      · exact hbpost g hg
  | done => simp at h

theorem inv_step (lib : GoLib) (l : Labeller) (batches : List (List Issue))
    (a : Action) (st st' : LabelState) (hinv : Inv lib l batches st)
    (h : step lib l a st = some st') : Inv lib l batches st' := by
  cases a with
  | main => exact inv_stepMain lib l batches st st' hinv h
  | unit i =>
    simp only [Cmd.step] at h
    cases hg : st.units[i]? with
    | none => simp [hg] at h
    | some g =>
      simp only [hg] at h
      exact inv_stepGoroutine lib l batches st st' i g hinv hg h

theorem inv_exec (lib : GoLib) (l : Labeller) (batches : List (List Issue))
    (schedule : List Action) :
    ∀ st st', Inv lib l batches st → exec lib l schedule st = some st' →
      Inv lib l batches st' := by
  induction schedule with
  | nil =>
    intro st st' hinv h
    simp only [Cmd.exec, Option.some.injEq] at h
    exact h ▸ hinv
  | cons a rest ih =>
    intro st st' hinv h
    simp only [Cmd.exec] at h
    cases hs : Cmd.step lib l a st with
    | none => simp [hs] at h
    | some mid =>
      simp only [hs] at h
      exact ih mid st' (inv_step lib l batches a st mid hinv hs) h

theorem countP_counted_of_done (lib : GoLib) (l : Labeller) (us : List Goroutine)
    (h : ∀ g ∈ us, g.pc = Pc.done) :
    us.countP (Goroutine.counted lib l) = (us.map Goroutine.issue).countP (isMatched lib l) := by
  induction us with
  | nil => rfl
  | cons g rest ih =>
    have hg := h g (List.mem_cons_self _ _)
    have hrest := ih (fun g' hg' => h g' (List.mem_cons_of_mem _ hg'))
    simp only [List.countP_cons, List.map_cons, hrest, Goroutine.counted, hg]

theorem filter_recorded_of_done (lib : GoLib) (l : Labeller) (us : List Goroutine)
    (h : ∀ g ∈ us, g.pc = Pc.done) :
    (us.filter (Goroutine.recorded lib l)).map Goroutine.issue =
      (us.map Goroutine.issue).filter (fun issue => !isMatched lib l issue) := by
  induction us with
  | nil => rfl
  | cons g rest ih =>
    have hg := h g (List.mem_cons_self _ _)
    have hrest := ih (fun g' hg' => h g' (List.mem_cons_of_mem _ hg'))
    have hrec : Goroutine.recorded lib l g = !isMatched lib l g.issue := by
      simp [Goroutine.recorded, hg]
    cases hm : isMatched lib l g.issue <;>
      simp [List.filter_cons, hrec, hm, hrest]

theorem filter_edited_of_done (lib : GoLib) (l : Labeller) (us : List Goroutine)
    (h : ∀ g ∈ us, g.pc = Pc.done) :
    (us.filter (Goroutine.edited lib l)).map (fun g => editOf lib l g.issue) =
      ((us.map Goroutine.issue).filter (isMatched lib l)).map (editOf lib l) := by
  induction us with
  | nil => rfl
  | cons g rest ih =>
    have hg := h g (List.mem_cons_self _ _)
    have hrest := ih (fun g' hg' => h g' (List.mem_cons_of_mem _ hg'))
    have hed : Goroutine.edited lib l g = isMatched lib l g.issue := by
      simp [Goroutine.edited, hg]
    cases hm : isMatched lib l g.issue <;>
      simp [List.filter_cons, hed, hm, hrest]

theorem countP_holdsMu_of_done (us : List Goroutine) (h : ∀ g ∈ us, g.pc = Pc.done) :
    us.countP Goroutine.holdsMu = 0 := by
  rw [List.countP_eq_zero]
  intro g hg
  simp [Goroutine.holdsMu, h g hg]

theorem finished_iff (st : LabelState) :
    st.finished = true ↔ st.waiting = true ∧ ∀ g ∈ st.units, g.pc = Pc.done := by
  simp [LabelState.finished, List.all_eq_true]

/-- What a run of `Label` has done when `wg.Wait()` returns. -/
theorem inv_finished (lib : GoLib) (l : Labeller) (batches : List (List Issue))
    (st : LabelState) (hinv : Inv lib l batches st) (hfin : st.finished = true) :
    st.units.map Goroutine.issue = pullRequests batches ∧
    st.totalLabelledPRs =
      (pullRequests batches).countP (isMatched lib l) % 18446744073709551616 ∧
    st.prs.Perm ((pullRequests batches).filter (fun issue => !isMatched lib l issue)) ∧
    st.edits.Perm (((pullRequests batches).filter (isMatched lib l)).map (editOf lib l)) ∧
    st.unlabelledMu = false := by
  obtain ⟨hw, hdone⟩ := (finished_iff st).1 hfin
  obtain ⟨hb, hc⟩ := hinv.waiting hw
  have hunits : st.units.map Goroutine.issue = pullRequests batches := by
    have hi := hinv.issues
    rw [hb, hc] at hi
    simpa [pullRequests] using hi
  refine ⟨hunits, ?_, ?_, ?_, ?_⟩
  · rw [hinv.total, countP_counted_of_done lib l _ hdone, hunits]
  · have hp := hinv.prs
    rwa [filter_recorded_of_done lib l _ hdone, hunits] at hp
  · have he := hinv.edits
    rwa [filter_edited_of_done lib l _ hdone, hunits] at he
  · have hm := hinv.mutex
    rw [countP_holdsMu_of_done _ hdone] at hm
    cases hmu : st.unlabelledMu with
    | false => rfl
    | true => simp [hmu] at hm

theorem exec_finished (lib : GoLib) (l : Labeller) (batches : List (List Issue))
    (schedule : List Action) (st : LabelState)
    (h : exec lib l schedule (LabelState.init batches) = some st)
    (hfin : st.finished = true) :
    st.units.map Goroutine.issue = pullRequests batches ∧
    st.totalLabelledPRs =
      (pullRequests batches).countP (isMatched lib l) % 18446744073709551616 ∧
    st.prs.Perm ((pullRequests batches).filter (fun issue => !isMatched lib l issue)) ∧
    st.edits.Perm (((pullRequests batches).filter (isMatched lib l)).map (editOf lib l)) ∧
    st.unlabelledMu = false :=
  inv_finished lib l batches st
    (inv_exec lib l batches schedule _ st (inv_init lib l batches) h) hfin

theorem stepMain_stepsLeft (st st' : LabelState) (h : stepMain st = some st') :
    st'.stepsLeft < st.stepsLeft := by
  obtain ⟨chan, batch, waiting, units, mu, prs, total, edits⟩ := st
  unfold Cmd.stepMain at h
  simp only at h
  cases waiting with
  | true => simp at h
  | false =>
    simp only [Bool.false_eq_true, if_false] at h
    cases batch with
    | cons issue rest =>
      simp only at h
      by_cases hpr : issue.isPullRequest = true
      · simp only [hpr, if_true, Option.some.injEq] at h
        subst h
        simp only [LabelState.stepsLeft, List.map_append, List.sum_append, List.map_cons,
          List.map_nil, List.sum_cons, List.sum_nil, Pc.stepsLeft, List.length_cons]
        omega
      · simp only [hpr, Bool.false_eq_true, if_false, Option.some.injEq] at h
        subst h
        simp only [LabelState.stepsLeft, List.length_cons]
        omega
    | nil =>
      cases chan with
      | cons issues more =>
        simp only [Option.some.injEq] at h
        subst h
        simp only [LabelState.stepsLeft, List.map_cons, List.sum_cons, List.length_nil]
        omega
      | nil =>
        simp only [Option.some.injEq] at h
        subst h
        simp [LabelState.stepsLeft]

theorem stepGoroutine_stepsLeft (lib : GoLib) (l : Labeller) (st st' : LabelState) (i : Nat)
    (g : Goroutine) (hg : st.units[i]? = some g) (h : stepGoroutine lib l i g st = some st') :
    st'.stepsLeft < st.stepsLeft := by
  obtain ⟨pre, post, hus, hset⟩ := split_at_index st.units i g hg
  obtain ⟨chan, batch, waiting, units, mu, prs, total, edits⟩ := st
  simp only at hus hset
  subst hus
  obtain ⟨issue, pc⟩ := g
  unfold Cmd.stepGoroutine at h
  cases pc with
  | start =>
    simp only [Option.some.injEq, hset] at h
    subst h
    cases hsome : (applyLabelToIssue lib l issue).2.isSome <;>
      simp only [LabelState.stepsLeft, List.map_append, List.sum_append, List.map_cons,
        List.sum_cons, hsome, Bool.false_eq_true, if_false, if_true, Pc.stepsLeft] <;>
      omega
  | failed =>
    cases mu with
    | true => simp at h
    | false =>
      simp only [Bool.false_eq_true, if_false, Option.some.injEq, hset] at h
      subst h
      simp only [LabelState.stepsLeft, List.map_append, List.sum_append, List.map_cons,
        List.sum_cons, Pc.stepsLeft]
      omega
  | done => simp at h
  | labelled =>
    simp only [Option.some.injEq, hset] at h
    subst h
    simp only [LabelState.stepsLeft, List.map_append, List.sum_append, List.map_cons,
      List.sum_cons, Pc.stepsLeft]
    omega
  | locked =>
    simp only [Option.some.injEq, hset] at h
    subst h
    simp only [LabelState.stepsLeft, List.map_append, List.sum_append, List.map_cons,
      List.sum_cons, Pc.stepsLeft]
    omega
  | appending r =>
    simp only [Option.some.injEq, hset] at h
    subst h
    simp only [LabelState.stepsLeft, List.map_append, List.sum_append, List.map_cons,
      List.sum_cons, Pc.stepsLeft]
    omega
  | unlocking =>
    simp only [Option.some.injEq, hset] at h
    subst h
    simp only [LabelState.stepsLeft, List.map_append, List.sum_append, List.map_cons,
      List.sum_cons, Pc.stepsLeft]
    omega

theorem step_stepsLeft (lib : GoLib) (l : Labeller) (a : Action) (st st' : LabelState)
    (h : step lib l a st = some st') : st'.stepsLeft < st.stepsLeft := by
  cases a with
  | main => exact stepMain_stepsLeft st st' h
  | unit i =>
    simp only [Cmd.step] at h
    cases hg : st.units[i]? with
    | none => simp [hg] at h
    | some g =>
      simp only [hg] at h
      exact stepGoroutine_stepsLeft lib l st st' i g hg h

/-- No run is longer than the bound of its first state. -/
theorem exec_length_le (lib : GoLib) (l : Labeller) (schedule : List Action) :
    ∀ st st', exec lib l schedule st = some st' →
      schedule.length + st'.stepsLeft ≤ st.stepsLeft := by
  induction schedule with
  | nil =>
    intro st st' h
    simp only [Cmd.exec, Option.some.injEq] at h
    subst h
    simp
  | cons a rest ih =>
    intro st st' h
    simp only [Cmd.exec] at h
    cases hs : Cmd.step lib l a st with
    | none => simp [hs] at h
    | some mid =>
      simp only [hs] at h
      have h1 := ih mid st' h
      have h2 := step_stepsLeft lib l a st mid hs
      simp only [List.length_cons]
      omega

theorem stepMain_enabled (st : LabelState) (hw : st.waiting = false) :
    ∃ st', stepMain st = some st' := by
  obtain ⟨chan, batch, waiting, units, mu, prs, total, edits⟩ := st
  simp only at hw
  subst hw
  unfold Cmd.stepMain
  cases batch with
  | cons issue rest =>
    cases hpr : issue.isPullRequest <;> simp [hpr]
  | nil =>
    cases chan <;> simp

theorem stepGoroutine_enabled (lib : GoLib) (l : Labeller) (i : Nat) (g : Goroutine)
    (st : LabelState) (hdone : g.pc ≠ Pc.done)
    (hmu : g.pc = Pc.failed → st.unlabelledMu = false) :
    ∃ st', stepGoroutine lib l i g st = some st' := by
  obtain ⟨issue, pc⟩ := g
  cases pc with
  | done => exact absurd rfl hdone
  | failed =>
    have := hmu rfl
    simp [stepGoroutine, this]
  | start => simp [stepGoroutine]
  | labelled => simp [stepGoroutine]
  | locked => simp [stepGoroutine]
  | appending r => simp [stepGoroutine]
  | unlocking => simp [stepGoroutine]

/-- No deadlock: a state that is not the final one has a step. -/
theorem inv_can_step (lib : GoLib) (l : Labeller) (batches : List (List Issue))
    (st : LabelState) (hinv : Inv lib l batches st) (hnf : st.finished = false) :
    ∃ a st', step lib l a st = some st' := by
  cases hw : st.waiting with
  | false =>
    obtain ⟨st', h⟩ := stepMain_enabled st hw
    exact ⟨Action.main, st', h⟩
  | true =>
    have hex : ∃ g ∈ st.units, g.pc ≠ Pc.done := by
      by_contra hall
      simp only [not_exists, not_and, not_not] at hall
      have hfin : st.finished = true := (finished_iff st).2 ⟨hw, hall⟩
      rw [hfin] at hnf
      exact Bool.noConfusion hnf
    cases hmu : st.unlabelledMu with
    | false =>
      obtain ⟨g, hg, hpc⟩ := hex
      obtain ⟨i, hi⟩ := List.getElem?_of_mem hg
      obtain ⟨st', h⟩ := stepGoroutine_enabled lib l i g st hpc (fun _ => hmu)
      exact ⟨Action.unit i, st', by simp only [Cmd.step, hi]; exact h⟩
    | true =>
      have hm := hinv.mutex
      rw [hmu] at hm
      have hpos : 0 < st.units.countP Goroutine.holdsMu := by
        rw [hm]; decide
      obtain ⟨g, hg, hholds⟩ := List.countP_pos_iff.1 hpos
      obtain ⟨i, hi⟩ := List.getElem?_of_mem hg
      have hpc : g.pc ≠ Pc.done := by
        intro hd
        simp [Goroutine.holdsMu, hd] at hholds
      have hnf' : g.pc = Pc.failed → st.unlabelledMu = false := by
        intro hf
        simp [Goroutine.holdsMu, hf] at hholds
      obtain ⟨st', h⟩ := stepGoroutine_enabled lib l i g st hpc hnf'
      exact ⟨Action.unit i, st', by simp only [Cmd.step, hi]; exact h⟩

/-- Every state of a run can be continued to the state in which `wg.Wait()` returns. -/
theorem inv_can_finish (lib : GoLib) (l : Labeller) (batches : List (List Issue)) :
    ∀ (n : Nat) (st : LabelState), st.stepsLeft ≤ n → Inv lib l batches st →
      ∃ schedule st', exec lib l schedule st = some st' ∧ st'.finished = true := by
  intro n
  induction n with
  | zero =>
    intro st hn hinv
    cases hfin : st.finished with
    | true => exact ⟨[], st, rfl, hfin⟩
    | false =>
      obtain ⟨a, st1, hs⟩ := inv_can_step lib l batches st hinv hfin
      have := step_stepsLeft lib l a st st1 hs
      omega
  | succ n ih =>
    intro st hn hinv
    cases hfin : st.finished with
    | true => exact ⟨[], st, rfl, hfin⟩
    | false =>
      obtain ⟨a, st1, hs⟩ := inv_can_step lib l batches st hinv hfin
      have hlt := step_stepsLeft lib l a st st1 hs
      obtain ⟨rest, st', hrun, hdone⟩ := ih st1 (by omega) (inv_step lib l batches a st st1 hinv hs)
      exact ⟨a :: rest, st', by simp only [Cmd.exec, hs]; exact hrun, hdone⟩

theorem exec_can_finish (lib : GoLib) (l : Labeller) (batches : List (List Issue))
    (schedule : List Action) (st : LabelState)
    (h : exec lib l schedule (LabelState.init batches) = some st) :
    ∃ more st', exec lib l more st = some st' ∧ st'.finished = true :=
  inv_can_finish lib l batches st.stepsLeft st (le_refl _)
    (inv_exec lib l batches schedule _ st (inv_init lib l batches) h)

/-- C2: a labelling goroutine, from its spawn to its return with `unlabelledMu`
free at its start, does one of two things. If `matchWithTag` gives `"unknown"`
for the title, `applyLabelToIssue` makes no `Issues.Edit` call and returns an
error, and the issue is appended to `failedPRs.prs`. Otherwise it makes exactly
one `Issues.Edit` call, for the number of the issue and with the one label
`gitLabelMap[tag]` (the empty string when the tag is not a key), returns `nil`,
and `failedPRs.prs` is left as it was while the counter grows by one. -/
theorem labellingUnit_outcome (lib : GoLib) (l : Labeller) (issue : Issue) (st : LabelState)
    (i : Nat) (hg : st.units[i]? = some ⟨issue, Pc.start⟩) (hmu : st.unlabelledMu = false) :
    (matchWithTag lib l issue.title = "unknown" →
      applyLabelToIssue lib l issue = ([], some "No matching tag found") ∧
      runGoroutine lib l i 5 st =
        { st with prs := st.prs ++ [issue], units := st.units.set i ⟨issue, Pc.done⟩ }) ∧
    (matchWithTag lib l issue.title ≠ "unknown" →
      applyLabelToIssue lib l issue =
        ([⟨issue.number, [(l.gitLabelMap (matchWithTag lib l issue.title)).getD ""]⟩], none) ∧
      runGoroutine lib l i 5 st =
        { st with
          edits := st.edits ++
            [⟨issue.number, [(l.gitLabelMap (matchWithTag lib l issue.title)).getD ""]⟩],
          totalLabelledPRs := (st.totalLabelledPRs + 1) % 18446744073709551616,
          units := st.units.set i ⟨issue, Pc.done⟩ }) := by
  have hlt : i < st.units.length := (List.getElem?_eq_some.1 hg).1
  obtain ⟨chan, batch, waiting, units, mu, prs, total, edits⟩ := st
  simp only at hg hmu hlt
  subst hmu
  constructor
  · intro hm
    have happly : applyLabelToIssue lib l issue = ([], some "No matching tag found") := by
      simp [applyLabelToIssue, hm]
    refine ⟨happly, ?_⟩
    simp [runGoroutine, step, stepGoroutine, hg, happly, hlt, List.set_set]
  · intro hm
    have happly : applyLabelToIssue lib l issue =
        ([⟨issue.number, [(l.gitLabelMap (matchWithTag lib l issue.title)).getD ""]⟩], none) := by
      simp [applyLabelToIssue, hm, GoMap.index]
    refine ⟨happly, ?_⟩
    simp [runGoroutine, step, stepGoroutine, hg, happly, hlt, List.set_set]

/-- C2 on a matched and on an unmatched pull request. -/
theorem labellingUnit_outcome_witness :
    (runGoroutine asciiLib ⟨noClient, GoMap.empty.insert "fix" "bugfix", tags⟩ 0 5
        { LabelState.init [] with units := [⟨⟨7, "Fix: crash", "ann", true, []⟩, Pc.start⟩] }).edits
      = [⟨7, ["bugfix"]⟩] ∧
    (runGoroutine asciiLib ⟨noClient, GoMap.empty, tags⟩ 0 5
        { LabelState.init [] with units := [⟨⟨8, "Bump", "bo", true, []⟩, Pc.start⟩] }).prs
      = [⟨8, "Bump", "bo", true, []⟩] := by
  constructor
  · rw [((labellingUnit_outcome asciiLib ⟨noClient, GoMap.empty.insert "fix" "bugfix", tags⟩
      ⟨7, "Fix: crash", "ann", true, []⟩
      { LabelState.init [] with units := [⟨⟨7, "Fix: crash", "ann", true, []⟩, Pc.start⟩] }
      0 rfl rfl).2 (by decide)).2]
    rfl
  · rw [((labellingUnit_outcome asciiLib ⟨noClient, GoMap.empty, tags⟩
      ⟨8, "Bump", "bo", true, []⟩
      { LabelState.init [] with units := [⟨⟨8, "Bump", "bo", true, []⟩, Pc.start⟩] }
      0 rfl rfl).1 (by decide)).2]
    rfl

theorem batchesOf_append (xs ys : List ChanEvent) :
    batchesOf (xs ++ ys) = batchesOf xs ++ batchesOf ys := by
  induction xs with
  | nil => rfl
  | cons e rest ih =>
    cases e <;> simp [batchesOf, ih]

theorem batchesOf_pages (l : Labeller) (n : Nat) :
    batchesOf ((List.range n).flatMap (fun i =>
        [ChanEvent.request ⟨"closed", ((i + 1 : Nat) : Int), 100⟩,
         ChanEvent.send (l.client.listByRepo ⟨"closed", ((i + 1 : Nat) : Int), 100⟩)])) =
      (List.range n).map (fun i => l.client.listByRepo ⟨"closed", ((i + 1 : Nat) : Int), 100⟩) := by
  induction n with
  | zero => rfl
  | succ n ih =>
    rw [List.range_succ, List.flatMap_append, List.map_append, batchesOf_append, ih]
    simp [batchesOf]

/-- C5: when page `k` is the first empty page, `parseRepoPRs` ends after `k`
requests (any bound `fuel ≥ k` on their number is enough): it requests the
pages `1, ..., k` in this order, each with state `"closed"` and page size `100`,
sends every page before `k` as one batch right after requesting it, sends
nothing for page `k` and then closes the channel. -/
theorem parseRepoPRs_pages (l : Labeller) (k : Nat) (hk1 : 1 ≤ k)
    (hk : k < 9223372036854775808)
    (hne : ∀ p : Nat, 1 ≤ p → p < k → l.client.listByRepo ⟨"closed", (p : Int), 100⟩ ≠ [])
    (hempty : l.client.listByRepo ⟨"closed", (k : Int), 100⟩ = [])
    (fuel : Nat) (hfuel : k ≤ fuel) :
    parseRepoPRs l fuel = some
      ((List.range (k - 1)).flatMap (fun i =>
          [ChanEvent.request ⟨"closed", ((i + 1 : Nat) : Int), 100⟩,
           ChanEvent.send (l.client.listByRepo ⟨"closed", ((i + 1 : Nat) : Int), 100⟩)]) ++
        [ChanEvent.request ⟨"closed", (k : Int), 100⟩, ChanEvent.close]) ∧
    (∀ events, parseRepoPRs l fuel = some events →
      batchesOf events =
        (List.range (k - 1)).map (fun i =>
          l.client.listByRepo ⟨"closed", ((i + 1 : Nat) : Int), 100⟩)) := by
  have htrace := parseLoop_trace l k hk hne hempty (k - 1) 1 fuel (le_refl 1) (by omega)
    (by omega)
  have hshape : pagesTrace l 1 (k - 1) k =
      (List.range (k - 1)).flatMap (fun i =>
          [ChanEvent.request ⟨"closed", ((i + 1 : Nat) : Int), 100⟩,
           ChanEvent.send (l.client.listByRepo ⟨"closed", ((i + 1 : Nat) : Int), 100⟩)]) ++
        [ChanEvent.request ⟨"closed", (k : Int), 100⟩, ChanEvent.close] := by
    unfold pagesTrace pageOptions
    congr 2
    funext i
    rw [Nat.add_comm 1 i]
  have hrun : parseRepoPRs l fuel = some (pagesTrace l 1 (k - 1) k) := htrace
  refine ⟨by rw [hrun, hshape], ?_⟩
  intro events hev
  rw [hrun, Option.some.injEq] at hev
  subst hev
  rw [hshape, batchesOf_append, batchesOf_pages]
  simp [batchesOf]

theorem demo_run : exec asciiLib demoLabeller demoSchedule (LabelState.init demoBatches)
    = some demoFinal := by
  decide

theorem exec_client_irrelevant (lib : GoLib) (l : Labeller) (c : Client) :
    exec lib ⟨c, l.gitLabelMap, l.tags⟩ = exec lib l := by
  have hstep : step lib ⟨c, l.gitLabelMap, l.tags⟩ = step lib l := rfl
  funext schedule
  induction schedule with
  | nil => rfl
  | cons a rest ih =>
    funext st
    simp only [exec, hstep]
    cases step lib l a st with
    | none => rfl
    | some st' => exact congrFun ih st'

theorem pullRequests_filter (batches : List (List Issue)) (p : Issue → Bool) :
    (pullRequests batches).filter p =
      batches.flatten.filter (fun issue => issue.isPullRequest && p issue) := by
  simp only [pullRequests, List.filter_filter]
  congr 1
  funext issue
  exact Bool.and_comm _ _

theorem pullRequests_countP (batches : List (List Issue)) (p : Issue → Bool) :
    (pullRequests batches).countP p =
      batches.flatten.countP (fun issue => issue.isPullRequest && p issue) := by
  rw [List.countP_eq_length_filter, List.countP_eq_length_filter, pullRequests_filter]

/-- C6: over any batches `Label` has a run that returns from `wg.Wait()`, and in
every run of `Label` over the batches, at the return of `wg.Wait()`: every
pull request of a batch for whose title `matchWithTag` gives
`"unknown"` is in `failedPRs.prs`, and is printed with its title and login; the
counter is the number of pull requests with a tag (modulo `2^64`), so an
unmatched pull request adds nothing to it; and every entry of `failedPRs.prs`
is a pull request of a batch with no tag. `failedPRs.prs` is a rearrangement of
the unmatched pull requests of the batches. -/
theorem Label_unlabelled_list (lib : GoLib) (l : Labeller) (batches : List (List Issue))
    (schedule : List Action) (st : LabelState)
    (h : exec lib l schedule (LabelState.init batches) = some st)
    (hfin : st.finished = true) :
    (∃ schedule' st', exec lib l schedule' (LabelState.init batches) = some st' ∧
        st'.finished = true) ∧
    (∀ issue ∈ batches.flatten, issue.isPullRequest = true →
        matchWithTag lib l issue.title = "unknown" →
        issue ∈ st.prs ∧ (issue.title, issue.login) ∈ (summary st).2) ∧
    st.totalLabelledPRs =
      batches.flatten.countP (fun issue =>
        issue.isPullRequest && decide (matchWithTag lib l issue.title ≠ "unknown"))
        % 18446744073709551616 ∧
    (∀ issue ∈ st.prs, issue ∈ batches.flatten ∧ issue.isPullRequest = true ∧
        matchWithTag lib l issue.title = "unknown") ∧
    st.prs.Perm (batches.flatten.filter (fun issue =>
        issue.isPullRequest && decide (matchWithTag lib l issue.title = "unknown"))) := by
  obtain ⟨_, htotal, hprs, _, _⟩ := exec_finished lib l batches schedule st h hfin
  rw [pullRequests_filter] at hprs
  rw [pullRequests_countP] at htotal
  have hmem : ∀ issue, issue ∈ st.prs ↔ (issue ∈ batches.flatten ∧
      issue.isPullRequest = true ∧ matchWithTag lib l issue.title = "unknown") := by
    intro issue
    rw [hprs.mem_iff, List.mem_filter]
    simp [isMatched]
  refine ⟨exec_can_finish lib l batches [] _ rfl, ?_, ?_, ?_, ?_⟩
  · intro issue hin hpr hm
    have hp : issue ∈ st.prs := (hmem issue).2 ⟨hin, hpr, hm⟩
    exact ⟨hp, List.mem_map.2 ⟨issue, hp, rfl⟩⟩
  · simpa [isMatched] using htotal
  · intro issue hp
    exact (hmem issue).1 hp
  · simpa [isMatched] using hprs

/-- C6 on the example run: the unmatched pull request 3 is the one entry of the list. -/
theorem Label_unlabelled_list_witness :
    exec asciiLib demoLabeller demoSchedule (LabelState.init demoBatches) = some demoFinal ∧
    demoFinal.finished = true ∧
    (∀ issue ∈ demoFinal.prs, issue ∈ demoBatches.flatten ∧ issue.isPullRequest = true ∧
        matchWithTag asciiLib demoLabeller issue.title = "unknown") :=
  ⟨demo_run, rfl,
    (Label_unlabelled_list asciiLib demoLabeller demoBatches demoSchedule demoFinal demo_run
      rfl).2.2.2.1⟩

/-- C7: over any batches `Label` has a run that returns from `wg.Wait()`, and in
every run of `Label` over the batches, at the return of `wg.Wait()`: the
counter is the number of pull requests of the batches whose
title has a tag, modulo `2^64`, hence that number when it is below `2^64`, and
then counter and length of `failedPRs.prs` add up to the number of pull
requests; the run is the same whatever client answers the `Issues.Edit` calls;
the goroutines are those of the pull requests, the `Issues.Edit` calls are,
up to order, one for each pull request with a tag, and every entry of
`failedPRs.prs` is a pull request. -/
theorem Label_success_count (lib : GoLib) (l : Labeller) (batches : List (List Issue))
    (schedule : List Action) (st : LabelState)
    (h : exec lib l schedule (LabelState.init batches) = some st)
    (hfin : st.finished = true) :
    (∃ schedule' st', exec lib l schedule' (LabelState.init batches) = some st' ∧
        st'.finished = true) ∧
    st.totalLabelledPRs =
      batches.flatten.countP (fun issue =>
        issue.isPullRequest && decide (matchWithTag lib l issue.title ≠ "unknown"))
        % 18446744073709551616 ∧
    (batches.flatten.countP (fun issue =>
        issue.isPullRequest && decide (matchWithTag lib l issue.title ≠ "unknown"))
        < 18446744073709551616 →
      st.totalLabelledPRs =
        batches.flatten.countP (fun issue =>
          issue.isPullRequest && decide (matchWithTag lib l issue.title ≠ "unknown")) ∧
      st.totalLabelledPRs + st.prs.length = batches.flatten.countP Issue.isPullRequest) ∧
    (∀ c : Client,
      exec lib ⟨c, l.gitLabelMap, l.tags⟩ schedule (LabelState.init batches) = some st) ∧
    st.units.map Goroutine.issue = batches.flatten.filter Issue.isPullRequest ∧
    st.edits.Perm
      ((batches.flatten.filter (fun issue =>
          issue.isPullRequest && decide (matchWithTag lib l issue.title ≠ "unknown"))).map
        (fun issue =>
          ⟨issue.number, [(l.gitLabelMap (matchWithTag lib l issue.title)).getD ""]⟩)) ∧
    (∀ issue ∈ st.prs, issue.isPullRequest = true) := by
  obtain ⟨hunits, htotal, hprs, hedits, _⟩ := exec_finished lib l batches schedule st h hfin
  have hcount := pullRequests_countP batches (isMatched lib l)
  have hsplit : (pullRequests batches).countP (isMatched lib l) +
      ((pullRequests batches).filter (fun issue => !isMatched lib l issue)).length =
        (pullRequests batches).length := by
    rw [← List.countP_eq_length_filter]
    generalize pullRequests batches = xs
    induction xs with
    | nil => rfl
    | cons x rest ih =>
      simp only [List.countP_cons, List.length_cons]
      cases isMatched lib l x <;> simp <;> omega
  have hlen : (pullRequests batches).length = batches.flatten.countP Issue.isPullRequest := by
    rw [pullRequests, List.countP_eq_length_filter]
  have hfun : (fun issue : Issue => issue.isPullRequest && isMatched lib l issue) =
      (fun issue => issue.isPullRequest &&
        decide (matchWithTag lib l issue.title ≠ "unknown")) := rfl
  rw [hcount, hfun] at htotal
  refine ⟨exec_can_finish lib l batches [] _ rfl, htotal, ?_, ?_, hunits, ?_, ?_⟩
  · intro hbound
    have heq := htotal
    rw [Nat.mod_eq_of_lt hbound] at heq
    refine ⟨heq, ?_⟩
    rw [hprs.length_eq, ← hlen, ← hsplit, hcount, hfun, heq]
  · intro c
    rw [exec_client_irrelevant]
    exact h
  · rw [pullRequests_filter, hfun] at hedits
    exact hedits
  · intro issue hp
    have hin := hprs.mem_iff.1 hp
    simp only [pullRequests, List.mem_filter] at hin
    exact hin.1.2

/-- C7 on the example run: one pull request labelled, one unmatched, one plain issue skipped. -/
theorem Label_success_count_witness :
    exec asciiLib demoLabeller demoSchedule (LabelState.init demoBatches) = some demoFinal ∧
    demoFinal.finished = true ∧
    demoFinal.totalLabelledPRs + demoFinal.prs.length = 2 ∧
    demoBatches.flatten.length = 3 :=
  ⟨demo_run, rfl,
    ((Label_success_count asciiLib demoLabeller demoBatches demoSchedule demoFinal demo_run
      rfl).2.2.1 (by decide)).2, rfl⟩

/-- C10: for every schedule, that is for every interleaving of the goroutines
`Label` spawns (each append to `failedPRs.prs` being a read and a write under
`unlabelledMu`, each increment one atomic step): the run is finite, it can
always be continued until `wg.Wait()` returns, and when `wg.Wait()` returns
the mutex is free, `failedPRs.prs` holds exactly one entry for each goroutine
whose issue got no tag, and the counter is the number of goroutines whose
issue got a tag (modulo `2^64`, hence that number for fewer than `2^64`
goroutines). -/
theorem Label_no_lost_update (lib : GoLib) (l : Labeller) (batches : List (List Issue))
    (schedule : List Action) (st : LabelState)
    (h : exec lib l schedule (LabelState.init batches) = some st) :
    schedule.length ≤ (LabelState.init batches).stepsLeft ∧
    (∃ more st', exec lib l more st = some st' ∧ st'.finished = true) ∧
    (st.finished = true →
      st.unlabelledMu = false ∧
      st.prs.Perm
        ((st.units.filter (fun g =>
          decide (matchWithTag lib l g.issue.title = "unknown"))).map Goroutine.issue) ∧
      st.prs.length =
        st.units.countP (fun g => decide (matchWithTag lib l g.issue.title = "unknown")) ∧
      st.totalLabelledPRs =
        st.units.countP (fun g => decide (matchWithTag lib l g.issue.title ≠ "unknown"))
          % 18446744073709551616 ∧
      (st.units.length < 18446744073709551616 →
        st.totalLabelledPRs =
          st.units.countP (fun g => decide (matchWithTag lib l g.issue.title ≠ "unknown")))) := by
  refine ⟨?_, exec_can_finish lib l batches schedule st h, ?_⟩
  · have := exec_length_le lib l schedule _ st h
    omega
  · intro hfin
    obtain ⟨hunits, htotal, hprs, _, hmu⟩ := exec_finished lib l batches schedule st h hfin
    rw [← hunits] at htotal hprs
    have hperm : st.prs.Perm
        ((st.units.filter (fun g =>
          decide (matchWithTag lib l g.issue.title = "unknown"))).map Goroutine.issue) := by
      rw [List.filter_map] at hprs
      have hfun : ((fun issue => !isMatched lib l issue) ∘ Goroutine.issue) =
          (fun g : Goroutine => decide (matchWithTag lib l g.issue.title = "unknown")) := by
        funext g
        simp [isMatched]
      rwa [hfun] at hprs
    have hcount : st.totalLabelledPRs =
        st.units.countP (fun g => decide (matchWithTag lib l g.issue.title ≠ "unknown"))
          % 18446744073709551616 := by
      rw [List.countP_map] at htotal
      exact htotal
    refine ⟨hmu, hperm, ?_, hcount, ?_⟩
    · rw [hperm.length_eq, List.length_map, List.countP_eq_length_filter]
    · intro hN
      rw [hcount]
      apply Nat.mod_eq_of_lt
      exact lt_of_le_of_lt (List.countP_le_length _) hN

/-- C10 on the example run, where the goroutines of pull requests 1 and 3 interleave. -/
theorem Label_no_lost_update_witness :
    exec asciiLib demoLabeller demoSchedule (LabelState.init demoBatches) = some demoFinal ∧
    demoFinal.finished = true ∧
    demoFinal.prs.length = 1 ∧ demoFinal.totalLabelledPRs = 1 ∧ demoFinal.units.length = 2 :=
  ⟨demo_run, rfl,
    ((Label_no_lost_update asciiLib demoLabeller demoBatches demoSchedule demoFinal
      demo_run).2.2 rfl).2.2.1, rfl, rfl⟩

theorem matchWithTag_congr (lib : GoLib) (l₁ l₂ : Labeller) (htags : l₁.tags = l₂.tags) :
    matchWithTag lib l₁ = matchWithTag lib l₂ := by
  funext title
  simp only [matchWithTag, htags]

theorem mapGitLabels_congr (lib : GoLib) (l₁ l₂ : Labeller) (htags : l₁.tags = l₂.tags)
    (hlabels : l₁.client.listLabels = l₂.client.listLabels) :
    mapGitLabels lib l₁ = mapGitLabels lib l₂ := by
  simp only [mapGitLabels, matchWithTag_congr lib l₁ l₂ htags, hlabels]

theorem parseLoop_withoutLabels (l₁ l₂ : Labeller)
    (hpages : ∀ opts, (l₁.client.listByRepo opts).map Issue.withoutLabels =
      (l₂.client.listByRepo opts).map Issue.withoutLabels) :
    ∀ (fuel₁ fuel₂ : Nat) (page : Int) (ev₁ ev₂ : List ChanEvent),
      parseLoop l₁ fuel₁ page = some ev₁ → parseLoop l₂ fuel₂ page = some ev₂ →
      (batchesOf ev₁).map (List.map Issue.withoutLabels) =
        (batchesOf ev₂).map (List.map Issue.withoutLabels) := by
  intro fuel₁
  induction fuel₁ with
  | zero =>
    intro fuel₂ page ev₁ ev₂ h₁ _
    simp [parseLoop] at h₁
  | succ f₁ ih =>
    intro fuel₂ page ev₁ ev₂ h₁ h₂
    cases fuel₂ with
    | zero => simp [parseLoop] at h₂
    | succ f₂ =>
      have hlen : (l₁.client.listByRepo (pageOptions page)).length =
          (l₂.client.listByRepo (pageOptions page)).length := by
        have := congrArg List.length (hpages (pageOptions page))
        simpa using this
      simp only [parseLoop] at h₁ h₂
      by_cases hpos : (l₁.client.listByRepo (pageOptions page)).length > 0
      · have hpos₂ : (l₂.client.listByRepo (pageOptions page)).length > 0 := hlen ▸ hpos
        rw [if_pos hpos] at h₁
        rw [if_pos hpos₂] at h₂
        cases hr₁ : parseLoop l₁ f₁ (incrInt page) with
        | none => simp [hr₁] at h₁
        | some rest₁ =>
          cases hr₂ : parseLoop l₂ f₂ (incrInt page) with
          | none => simp [hr₂] at h₂
          | some rest₂ =>
            simp only [hr₁, Option.map_some', Option.some.injEq] at h₁
            simp only [hr₂, Option.map_some', Option.some.injEq] at h₂
            subst h₁ h₂
            simp only [batchesOf, List.map_cons, hpages, ih f₂ _ rest₁ rest₂ hr₁ hr₂]
      · have hpos₂ : ¬ (l₂.client.listByRepo (pageOptions page)).length > 0 := hlen ▸ hpos
        rw [if_neg hpos] at h₁
        rw [if_neg hpos₂] at h₂
        simp only [Option.some.injEq] at h₁ h₂
        subst h₁ h₂
        simp [batchesOf]

theorem pullRequests_withoutLabels (b₁ b₂ : List (List Issue))
    (h : b₁.map (List.map Issue.withoutLabels) = b₂.map (List.map Issue.withoutLabels)) :
    (pullRequests b₁).map Issue.withoutLabels = (pullRequests b₂).map Issue.withoutLabels := by
  have hcomm : ∀ b : List (List Issue), (pullRequests b).map Issue.withoutLabels =
      ((b.map (List.map Issue.withoutLabels)).flatten).filter Issue.isPullRequest := by
    intro b
    rw [pullRequests, ← List.map_flatten, List.filter_map]
    rfl
  rw [hcomm, hcomm, h]

theorem filter_map_withoutLabels {β : Type} (p : Issue → Bool) (f : Issue → β)
    (hp : ∀ issue, p issue.withoutLabels = p issue)
    (hf : ∀ issue, f issue.withoutLabels = f issue) (xs : List Issue) :
    (xs.filter p).map f = ((xs.map Issue.withoutLabels).filter p).map f := by
  rw [List.filter_map, List.map_map]
  have h1 : (p ∘ Issue.withoutLabels) = p := funext hp
  have h2 : (f ∘ Issue.withoutLabels) = f := funext hf
  rw [h1, h2]

theorem parseLoop_isSome_congr (l₁ l₂ : Labeller)
    (hpages : ∀ opts, (l₁.client.listByRepo opts).map Issue.withoutLabels =
      (l₂.client.listByRepo opts).map Issue.withoutLabels) :
    ∀ (fuel : Nat) (page : Int) (ev₁ : List ChanEvent),
      parseLoop l₁ fuel page = some ev₁ → ∃ ev₂, parseLoop l₂ fuel page = some ev₂ := by
  intro fuel
  induction fuel with
  | zero =>
    intro page ev₁ h₁
    simp [parseLoop] at h₁
  | succ f ih =>
    intro page ev₁ h₁
    have hlen : (l₁.client.listByRepo (pageOptions page)).length =
        (l₂.client.listByRepo (pageOptions page)).length := by
      have := congrArg List.length (hpages (pageOptions page))
      simpa using this
    simp only [parseLoop] at h₁ ⊢
    by_cases hpos : (l₁.client.listByRepo (pageOptions page)).length > 0
    · have hpos₂ : (l₂.client.listByRepo (pageOptions page)).length > 0 := hlen ▸ hpos
      rw [if_pos hpos] at h₁
      rw [if_pos hpos₂]
      cases hr₁ : parseLoop l₁ f (incrInt page) with
      | none => simp [hr₁] at h₁
      | some rest₁ =>
        obtain ⟨rest₂, hr₂⟩ := ih (incrInt page) rest₁ hr₁
        exact ⟨_, by rw [hr₂]; rfl⟩
    · have hpos₂ : ¬ (l₂.client.listByRepo (pageOptions page)).length > 0 := hlen ▸ hpos
      rw [if_neg hpos₂]
      exact ⟨_, rfl⟩

/-- C9: two complete runs of `Label` with the same vocabulary, against remotes
that list the same label names and the same pages of closed issues up to the
labels the issues carry (whatever the schedules, and whatever `Issues.Edit`
answers), end with the same counter, with the same unlabelled pull requests up
to order and up to the labels they carry, with the same printed summary lines
up to order, and after the same `Issues.Edit` calls up to order; and whenever
the first run is complete, the second remote admits a complete run within the
same number of requests. -/
theorem Label_rerun_same_outcome (lib : GoLib) (l₁ l₂ : Labeller)
    (htags : l₁.tags = l₂.tags)
    (hlabels : l₁.client.listLabels = l₂.client.listLabels)
    (hpages : ∀ opts, (l₁.client.listByRepo opts).map Issue.withoutLabels =
      (l₂.client.listByRepo opts).map Issue.withoutLabels)
    (fuel₁ fuel₂ : Nat) (schedule₁ schedule₂ : List Action) (st₁ st₂ : LabelState)
    (h₁ : Label lib l₁ fuel₁ schedule₁ = some st₁)
    (h₂ : Label lib l₂ fuel₂ schedule₂ = some st₂)
    (hfin₁ : st₁.finished = true) (hfin₂ : st₂.finished = true) :
    st₁.totalLabelledPRs = st₂.totalLabelledPRs ∧
    (st₁.prs.map Issue.withoutLabels).Perm (st₂.prs.map Issue.withoutLabels) ∧
    (summary st₁).1 = (summary st₂).1 ∧
    (summary st₁).2.Perm (summary st₂).2 ∧
    st₁.edits.Perm st₂.edits ∧
    (∃ schedule st, Label lib l₂ fuel₁ schedule = some st ∧ st.finished = true) := by
  have hagain : ∃ schedule st, Label lib l₂ fuel₁ schedule = some st ∧ st.finished = true := by
    cases hp : parseRepoPRs { l₁ with gitLabelMap := mapGitLabels lib l₁ } fuel₁ with
    | none => simp [Label, hp] at h₁
    | some ev =>
      obtain ⟨ev', hp'⟩ := parseLoop_isSome_congr { l₁ with gitLabelMap := mapGitLabels lib l₁ }
        { l₂ with gitLabelMap := mapGitLabels lib l₂ } hpages fuel₁ 1 ev hp
      obtain ⟨schedule, st, hrun, hdone⟩ := exec_can_finish lib
        { l₂ with gitLabelMap := mapGitLabels lib l₂ } (batchesOf ev') [] _ rfl
      refine ⟨schedule, st, ?_, hdone⟩
      have hp'' : parseRepoPRs { l₂ with gitLabelMap := mapGitLabels lib l₂ } fuel₁ = some ev' :=
        hp'
      simp only [Label, hp'']
      exact hrun
  unfold Label at h₁ h₂
  simp only at h₁ h₂
  cases hp₁ : parseRepoPRs { l₁ with gitLabelMap := mapGitLabels lib l₁ } fuel₁ with
  | none => simp [hp₁] at h₁
  | some ev₁ =>
    cases hp₂ : parseRepoPRs { l₂ with gitLabelMap := mapGitLabels lib l₂ } fuel₂ with
    | none => simp [hp₂] at h₂
    | some ev₂ =>
      simp only [hp₁] at h₁
      simp only [hp₂] at h₂
      have hb := parseLoop_withoutLabels { l₁ with gitLabelMap := mapGitLabels lib l₁ }
        { l₂ with gitLabelMap := mapGitLabels lib l₂ } hpages fuel₁ fuel₂ 1 ev₁ ev₂ hp₁ hp₂
      have hPR := pullRequests_withoutLabels _ _ hb
      obtain ⟨_, ht₁, hprs₁, hed₁, _⟩ := exec_finished lib _ _ schedule₁ st₁ h₁ hfin₁
      obtain ⟨_, ht₂, hprs₂, hed₂, _⟩ := exec_finished lib _ _ schedule₂ st₂ h₂ hfin₂
      have hmap := mapGitLabels_congr lib l₁ l₂ htags hlabels
      have hM : isMatched lib { l₁ with gitLabelMap := mapGitLabels lib l₁ } =
          isMatched lib { l₂ with gitLabelMap := mapGitLabels lib l₂ } := by
        funext issue
        simp only [isMatched, matchWithTag, htags]
      have hE : editOf lib { l₁ with gitLabelMap := mapGitLabels lib l₁ } =
          editOf lib { l₂ with gitLabelMap := mapGitLabels lib l₂ } := by
        funext issue
        simp only [editOf, matchWithTag, htags, hmap]
      rw [← hM] at ht₂ hprs₂ hed₂
      rw [← hE] at hed₂
      have key : ∀ {β : Type} (p : Issue → Bool) (f : Issue → β),
          (∀ issue, p issue.withoutLabels = p issue) →
          (∀ issue, f issue.withoutLabels = f issue) →
          ((pullRequests (batchesOf ev₁)).filter p).map f =
            ((pullRequests (batchesOf ev₂)).filter p).map f := by
        intro β p f hp hf
        rw [filter_map_withoutLabels p f hp hf (pullRequests (batchesOf ev₁)),
          filter_map_withoutLabels p f hp hf (pullRequests (batchesOf ev₂)), hPR]
      have htotal : st₁.totalLabelledPRs = st₂.totalLabelledPRs := by
        rw [ht₁, ht₂, List.countP_eq_length_filter, List.countP_eq_length_filter]
        have := congrArg List.length
          (key (isMatched lib { l₁ with gitLabelMap := mapGitLabels lib l₁ })
            (fun _ => ()) (fun _ => rfl) (fun _ => rfl))
        simp only [List.length_map] at this
        rw [this]
      have hprs : (st₁.prs.map Issue.withoutLabels).Perm (st₂.prs.map Issue.withoutLabels) := by
        refine (hprs₁.map _).trans (List.Perm.trans ?_ (hprs₂.map _).symm)
        rw [key (fun issue => !isMatched lib { l₁ with gitLabelMap := mapGitLabels lib l₁ } issue)
          Issue.withoutLabels (fun _ => rfl) (fun _ => rfl)]
      have hfields : ∀ st : LabelState, (summary st).2 =
          (st.prs.map Issue.withoutLabels).map (fun issue => (issue.title, issue.login)) := by
        intro st
        simp only [summary, List.map_map]
        rfl
      refine ⟨htotal, hprs, htotal, ?_, ?_, hagain⟩
      · rw [hfields, hfields]
        exact hprs.map _
      · refine hed₁.trans (List.Perm.trans ?_ hed₂.symm)
        rw [key (isMatched lib { l₁ with gitLabelMap := mapGitLabels lib l₁ })
          (editOf lib { l₁ with gitLabelMap := mapGitLabels lib l₁ })
          (fun _ => rfl) (fun _ => rfl)]

theorem demo_parse :
    parseRepoPRs { demoLabeller with gitLabelMap := mapGitLabels asciiLib demoLabeller } 3 =
      some
        [ChanEvent.request ⟨"closed", 1, 100⟩,
         ChanEvent.send [⟨1, "Fix: crash on start", "ann", true, []⟩,
           ⟨2, "Question about docs", "bo", false, []⟩],
         ChanEvent.request ⟨"closed", 2, 100⟩,
         ChanEvent.send [⟨3, "Bump version", "cy", true, ["old"]⟩],
         ChanEvent.request ⟨"closed", 3, 100⟩,
         ChanEvent.close] := by
  decide

set_option maxHeartbeats 4000000 in
theorem demo_exec :
    exec asciiLib { demoLabeller with gitLabelMap := mapGitLabels asciiLib demoLabeller }
      demoSchedule (LabelState.init demoBatches) = some demoLabelled := by
  decide

theorem demo_label_run : Label asciiLib demoLabeller 3 demoSchedule = some demoLabelled := by
  simp only [Label, demo_parse, batchesOf]
  exact demo_exec

theorem demo_parse_after :
    parseRepoPRs { (⟨demoClientAfter, GoMap.empty, tags⟩ : Labeller) with
        gitLabelMap := mapGitLabels asciiLib ⟨demoClientAfter, GoMap.empty, tags⟩ } 5 =
      some
        [ChanEvent.request ⟨"closed", 1, 100⟩,
         ChanEvent.send [⟨1, "Fix: crash on start", "ann", true, ["wontfix"]⟩,
           ⟨2, "Question about docs", "bo", false, []⟩],
         ChanEvent.request ⟨"closed", 2, 100⟩,
         ChanEvent.send [⟨3, "Bump version", "cy", true, ["old"]⟩],
         ChanEvent.request ⟨"closed", 3, 100⟩,
         ChanEvent.close] := by
  decide

set_option maxHeartbeats 4000000 in
theorem demo_exec_after :
    exec asciiLib { (⟨demoClientAfter, GoMap.empty, tags⟩ : Labeller) with
        gitLabelMap := mapGitLabels asciiLib ⟨demoClientAfter, GoMap.empty, tags⟩ }
      demoScheduleAfter
      (LabelState.init
        [[⟨1, "Fix: crash on start", "ann", true, ["wontfix"]⟩,
          ⟨2, "Question about docs", "bo", false, []⟩],
         [⟨3, "Bump version", "cy", true, ["old"]⟩]]) = some demoLabelledAfter := by
  decide

theorem demo_label_rerun :
    Label asciiLib ⟨demoClientAfter, GoMap.empty, tags⟩ 5 demoScheduleAfter
      = some demoLabelledAfter := by
  simp only [Label, demo_parse_after, batchesOf]
  exact demo_exec_after

/-- C9 on the example: a second run, on changed labels and along another schedule. -/
theorem Label_rerun_same_outcome_witness :
    Label asciiLib demoLabeller 3 demoSchedule = some demoLabelled ∧
    Label asciiLib ⟨demoClientAfter, GoMap.empty, tags⟩ 5 demoScheduleAfter
      = some demoLabelledAfter ∧
    demoLabelled.totalLabelledPRs = demoLabelledAfter.totalLabelledPRs ∧
    (summary demoLabelled).2.Perm (summary demoLabelledAfter).2 := by
  have h₁ := demo_label_run
  have h₂ := demo_label_rerun
  have hpages : ∀ opts, (demoClient.listByRepo opts).map Issue.withoutLabels =
      (demoClientAfter.listByRepo opts).map Issue.withoutLabels := by
    intro opts
    simp only [demoClient, demoClientAfter]
    split
    · rfl
    · split <;> rfl
  have h := Label_rerun_same_outcome asciiLib demoLabeller ⟨demoClientAfter, GoMap.empty, tags⟩
    rfl rfl hpages 3 5 demoSchedule demoScheduleAfter demoLabelled demoLabelledAfter h₁ h₂ rfl rfl
  exact ⟨h₁, h₂, h.1, h.2.2.2.1⟩

/-- C5 on the example remote: two pages sent, the third requested and found empty. -/
theorem parseRepoPRs_pages_witness :
    parseRepoPRs demoLabeller 3 = some
      [ChanEvent.request ⟨"closed", 1, 100⟩,
       ChanEvent.send [⟨1, "Fix: crash on start", "ann", true, []⟩,
         ⟨2, "Question about docs", "bo", false, []⟩],
       ChanEvent.request ⟨"closed", 2, 100⟩,
       ChanEvent.send [⟨3, "Bump version", "cy", true, ["old"]⟩],
       ChanEvent.request ⟨"closed", 3, 100⟩,
       ChanEvent.close] := by
  have hne : ∀ p : Nat, 1 ≤ p → p < 3 →
      demoLabeller.client.listByRepo ⟨"closed", (p : Int), 100⟩ ≠ [] := by
    intro p h1 h3
    interval_cases p <;> decide
  exact (parseRepoPRs_pages demoLabeller 3 (by decide) (by decide) hne (by decide) 3
    (by decide)).1

end Cmd
